import Mathlib

/-
Verification of the MRZ scanner core (extraction, normalization, format
resolution, field decoding and check-digit validation).

Strings are modelled as `List Char`.  JavaScript string primitives used by
the source are embedded as follows:
  - `s.substring(a, b)`  ->  `substr`       (drop/take, clamping like JS)
  - `s[i]`               ->  `charAt`       (out-of-range yields a sentinel
                                             non-digit, non-filler character,
                                             standing in for `undefined`)
  - `s.replace(/</g,x)`  ->  `removeLt` / character map
  - `s.trim()`           ->  `jsTrim`
  - `parseInt(s)`        ->  `jsParseInt`   (`none` stands for `NaN`)
  - `s.split('<<')`      ->  `splitSep`
  - `s.split('\n')`      ->  `splitNewlines`
  - `s.toUpperCase()`    ->  `List.map Char.toUpper` (ASCII uppercasing)
  - template literals    ->  list append of the pieces (`Nat.repr` for the
                             decimal rendering of a number)
-/

/-- Whitespace characters matched by the `\s` regex class and by `trim`
(ASCII approximation). -/
def jsSpace (c : Char) : Bool :=
  decide (c = ' ' ∨ c = '\t' ∨ c = '\n' ∨ c = '\r' ∨ c.toNat = 11 ∨ c.toNat = 12)

/-- JavaScript `s.substring(a, b)` for `a ≤ b` (clamps at the end of the
string, like JS). -/
def substr (l : List Char) (a b : Nat) : List Char :=
  (l.drop a).take (b - a)

/-- JavaScript single-character indexing `s[i]`.  An out-of-range access
yields `undefined` in JS; the sentinel `'?'` (not a digit, not a letter,
not a filler) plays that role here. -/
def charAt (l : List Char) (i : Nat) : Char :=
  l.getD i '?'

/-- JavaScript `s.replace(/</g, '')`. -/
def removeLt (l : List Char) : List Char :=
  l.filter (fun c => decide (c ≠ '<'))

/-- JavaScript `s.trim()` (both ends). -/
def jsTrim (l : List Char) : List Char :=
  ((l.dropWhile jsSpace).reverse.dropWhile jsSpace).reverse

/-- Decimal digit test, `/[0-9]/`. -/
def isDigitChar (c : Char) : Bool :=
  decide (48 ≤ c.toNat ∧ c.toNat ≤ 57)

/-- Numeric value of a list of decimal digits (most significant first). -/
def digitsVal (l : List Char) : Nat :=
  l.foldl (fun a c => a * 10 + (c.toNat - 48)) 0

/-- JavaScript `parseInt(s, 10)` restricted to the shapes arising in the
source: the longest leading run of decimal digits is converted; an empty
run yields `NaN`, modelled by `none`. -/
def jsParseInt (l : List Char) : Option Nat :=
  let ds := l.takeWhile isDigitChar
  if ds = [] then none else some (digitsVal ds)

/-- Decimal rendering of a number, as in a JS template literal. -/
def natStr (n : Nat) : List Char :=
  (Nat.repr n).toList

/-- Source `getCharValue`: digit to its value, `A`..`Z` to `charCode - 55`
(10..35), filler `<` to 0, anything else to 0. -/
def getCharValue (c : Char) : Nat :=
  if 48 ≤ c.toNat ∧ c.toNat ≤ 57 then c.toNat - 48
  else if 65 ≤ c.toNat ∧ c.toNat ≤ 90 then c.toNat - 55
  else if c = '<' then 0
  else 0

/-- The cyclic weight table `[7, 3, 1]` of the source. -/
def mrzWeights : List Nat := [7, 3, 1]

/-- The summation loop of source `calculateCheckDigit`, carrying the
running index. -/
def checkSum : List Char → Nat → Nat
  | [], _ => 0
  | c :: rest, i => getCharValue c * mrzWeights.getD (i % 3) 0 + checkSum rest (i + 1)

/-- Source `calculateCheckDigit`: 7-3-1 weighted sum modulo 10. -/
def calculateCheckDigit (data : List Char) : Nat :=
  checkSum data 0 % 10

/-- Source `verifyField`: `none` when the field passes, `some msg` when it
fails (non-digit declared check character, or digit mismatch). -/
def verifyField (fieldValue : List Char) (checkDigitChar : Char) (ty : List Char)
    (line : Nat) : Option (List Char) :=
  let calculated := calculateCheckDigit fieldValue
  match jsParseInt [checkDigitChar] with
  | none =>
      some ("Invalid check digit format for ".toList ++ ty ++ " (Line ".toList ++
        natStr line ++ "): \x27".toList ++ [checkDigitChar] ++ "\x27".toList)
  | some expected =>
      if calculated ≠ expected then
        some (ty ++ " check failed (Line ".toList ++ natStr line ++
          "). Expected ".toList ++ natStr calculated ++ ", found ".toList ++
          natStr expected ++ ". Value: ".toList ++ fieldValue)
      else none

/-- Source `formatYMD`: render a 6-character filler-free field as
`year-month-day` with the fixed century pivot (`yy > 50` fails towards
19xx, otherwise 20xx); `parseInt` of a non-digit prefix is `NaN` and then
the template renders `20NaN`. -/
def formatYMD (val : List Char) : List Char :=
  if val.length ≠ 6 ∨ val.contains '<' then val
  else
    let yy := jsParseInt (substr val 0 2)
    let mm := substr val 2 4
    let dd := substr val 4 6
    let year := match yy with
      | some n => if 50 < n then "19".toList ++ natStr n else "20".toList ++ natStr n
      | none => "20NaN".toList
    year ++ "-".toList ++ mm ++ "-".toList ++ dd

/-- JavaScript `s.split('<<')` (non-overlapping, leftmost-first). -/
def splitSep : List Char → List (List Char)
  | [] => [[]]
  | [c] => [[c]]
  | c :: d :: rest =>
      if c = '<' ∧ d = '<' then [] :: splitSep rest
      else
        match splitSep (d :: rest) with
        | [] => [[c]]
        | p :: ps => (c :: p) :: ps

/-- Render one name part: fillers to spaces, then trim
(`part.replace(/</g, ' ').trim()`). -/
def renderName (part : List Char) : List Char :=
  jsTrim (part.map (fun c => if c = '<' then ' ' else c))

/-- JavaScript `s.replace(/<+$/, '')`: strip trailing fillers. -/
def trimTrailingLt (l : List Char) : List Char :=
  (l.reverse.dropWhile (fun c => decide (c = '<'))).reverse

/-- Verification verdict of a parsed record. -/
inductive VStatus where
  | VALID : VStatus
  | INVALID : VStatus
deriving DecidableEq

/-- Document layout of a parsed record. -/
inductive DocType where
  | PASSPORT : DocType
  | ID_CARD : DocType
deriving DecidableEq

/-- The `names` sub-object of the unified result. -/
structure MrzNames where
  surname : List Char
  given_names : List Char
deriving DecidableEq

/-- Source `UnifiedMrzResult`. -/
structure UnifiedMrzResult where
  document_type : DocType
  document_number : List Char
  series : List Char
  nationality : List Char
  birth_date : List Char
  sex : Char
  expiry_date : List Char
  personal_number : List Char
  names : MrzNames
  verification_status : VStatus
  errors : List (List Char)
  raw_lines : List (List Char)
  cleaned_lines : List (List Char)
deriving DecidableEq

/-- Source `parseTD3` on `lines` (expected: two 44-character lines). -/
def parseTD3 (lines : List (List Char)) : UnifiedMrzResult :=
  let l1 := lines.getD 0 []
  let l2 := lines.getD 1 []
  let nameSection := substr l1 5 44
  let nameParts := splitSep nameSection
  let surname := renderName (nameParts.headD [])
  let givenNames := if 1 < nameParts.length then renderName (nameParts.getD 1 []) else []
  let docNum := substr l2 0 9
  let docNumCheck := charAt l2 9
  let nationality := removeLt (substr l2 10 13)
  let dob := substr l2 13 19
  let dobCheck := charAt l2 19
  let sex := charAt l2 20
  let expiry := substr l2 21 27
  let expiryCheck := charAt l2 27
  let personalNumRaw := substr l2 28 42
  let personalNum := removeLt personalNumRaw
  let personalCheck := charAt l2 42
  let compositeCheck := charAt l2 43
  let compositeString := substr l2 0 10 ++ substr l2 13 20 ++ substr l2 21 43
  let errs := List.filterMap id
    [verifyField docNum docNumCheck "Document Number".toList 2,
     verifyField dob dobCheck "Date of Birth".toList 2,
     verifyField expiry expiryCheck "Expiration Date".toList 2,
     verifyField personalNumRaw personalCheck "Personal Number".toList 2,
     verifyField compositeString compositeCheck "Composite (Final)".toList 2]
  let series := substr docNum 0 2
  { document_type := DocType.PASSPORT
    document_number := removeLt docNum
    series := removeLt series
    nationality := nationality
    birth_date := formatYMD dob
    sex := sex
    expiry_date := formatYMD expiry
    personal_number := personalNum
    names := { surname := surname, given_names := givenNames }
    verification_status := if errs.length = 0 then VStatus.VALID else VStatus.INVALID
    errors := errs
    raw_lines := lines
    cleaned_lines := lines }

/-- Source `parseTD1` on `lines` (expected: three 30-character lines). -/
def parseTD1 (lines : List (List Char)) : UnifiedMrzResult :=
  let l1 := lines.getD 0 []
  let l2 := lines.getD 1 []
  let l3 := lines.getD 2 []
  let docNum := substr l1 5 14
  let docNumCheck := charAt l1 14
  let optional1Raw := substr l1 15 30
  let personalNum := removeLt optional1Raw
  let dob := substr l2 0 6
  let dobCheck := charAt l2 6
  let sex := charAt l2 7
  let expiry := substr l2 8 14
  let expiryCheck := charAt l2 14
  let nationality := removeLt (substr l2 15 18)
  let compositeString := substr l1 5 30 ++ substr l2 0 7 ++ substr l2 8 15 ++ substr l2 18 29
  let compositeCheck := charAt l2 29
  let errs := List.filterMap id
    [verifyField docNum docNumCheck "Document Number".toList 1,
     verifyField dob dobCheck "Date of Birth".toList 2,
     verifyField expiry expiryCheck "Expiration Date".toList 2,
     verifyField compositeString compositeCheck "Composite (Final)".toList 2]
  let l3Clean := trimTrailingLt l3
  let nameParts := splitSep l3Clean
  let surname := renderName (nameParts.headD [])
  let givenNames := if 1 < nameParts.length then renderName (nameParts.getD 1 []) else []
  let series := substr docNum 0 2
  { document_type := DocType.ID_CARD
    document_number := removeLt docNum
    series := removeLt series
    nationality := nationality
    birth_date := formatYMD dob
    sex := sex
    expiry_date := formatYMD expiry
    personal_number := personalNum
    names := { surname := surname, given_names := givenNames }
    verification_status := if errs.length = 0 then VStatus.VALID else VStatus.INVALID
    errors := errs
    raw_lines := lines
    cleaned_lines := lines }

/- ===== Claim C1: the 7-3-1 check digit ===== -/

/-- Character class appearing in MRZ data fields: decimal digits, capital
letters, and the filler. -/
def isMrzDataChar (c : Char) : Prop :=
  (48 ≤ c.toNat ∧ c.toNat ≤ 57) ∨ (65 ≤ c.toNat ∧ c.toNat ≤ 90) ∨ c = '<'

instance (c : Char) : Decidable (isMrzDataChar c) := by
  unfold isMrzDataChar
  infer_instance

/-- Character value as worded by the specification: a digit to its numeric
value, a letter `A`..`Z` to 10..35, the filler to 0. -/
def specCharValue (c : Char) : Nat :=
  if 48 ≤ c.toNat ∧ c.toNat ≤ 57 then c.toNat - 48
  else if 65 ≤ c.toNat ∧ c.toNat ≤ 90 then 10 + (c.toNat - 65)
  else 0

/-- The weight of position `i mod 3`, cycling `[7, 3, 1]`. -/
def specWeight : Nat → Nat
  | 0 => 7
  | 1 => 3
  | _ => 1

/-- Check digit as worded by the specification:
`sum(value(s[i]) * w(i mod 3)) mod 10`. -/
def specCheckDigit (s : List Char) : Nat :=
  ((s.enum.map (fun p => specCharValue p.2 * specWeight (p.1 % 3))).sum) % 10

theorem getCharValue_eq_specCharValue (c : Char) : getCharValue c = specCharValue c := by
  unfold getCharValue specCharValue
  by_cases h1 : 48 ≤ c.toNat ∧ c.toNat ≤ 57
  · rw [if_pos h1, if_pos h1]
  · rw [if_neg h1, if_neg h1]
    by_cases h2 : 65 ≤ c.toNat ∧ c.toNat ≤ 90
    · rw [if_pos h2, if_pos h2]
      omega
    · rw [if_neg h2, if_neg h2]
      split <;> rfl

theorem weight_getD_eq_specWeight (i : Nat) :
    mrzWeights.getD (i % 3) 0 = specWeight (i % 3) := by
  have h : i % 3 = 0 ∨ i % 3 = 1 ∨ i % 3 = 2 := by omega
  rcases h with h | h | h <;> rw [h] <;> rfl

theorem checkSum_eq_enumFrom (s : List Char) :
    ∀ i, checkSum s i =
      ((s.enumFrom i).map (fun p => specCharValue p.2 * specWeight (p.1 % 3))).sum := by
  induction s with
  | nil => intro i; rfl
  | cons c rest ih =>
      intro i
      simp only [checkSum, List.enumFrom, List.map, List.sum_cons, ih (i + 1),
        getCharValue_eq_specCharValue, weight_getD_eq_specWeight]

/-- C1: for every string made of MRZ characters (digits, capital letters,
fillers), `calculateCheckDigit` computes the 7-3-1 weighted sum of the
specification character values, modulo 10. -/
theorem calculateCheckDigit_is_731_weighted_sum (s : List Char)
    (h : ∀ c ∈ s, isMrzDataChar c) :
    calculateCheckDigit s = specCheckDigit s := by
  unfold calculateCheckDigit specCheckDigit
  rw [checkSum_eq_enumFrom s 0]
  rfl

/-- Witness for C1 at the concrete field value `520727`. -/
theorem calculateCheckDigit_is_731_weighted_sum_witness :
    (∀ c ∈ "520727".toList, isMrzDataChar c) ∧
      calculateCheckDigit "520727".toList = specCheckDigit "520727".toList ∧
      calculateCheckDigit "520727".toList = 3 :=
  ⟨by decide, calculateCheckDigit_is_731_weighted_sum "520727".toList (by decide), by decide⟩

/- ===== Claim C2: VALID iff the error list is empty ===== -/

theorem status_of_errors (errs : List (List Char)) :
    ((if errs.length = 0 then VStatus.VALID else VStatus.INVALID) = VStatus.VALID ↔
      errs = []) := by
  cases errs <;> simp

/-- C2: a record produced by `parseTD3` on two 44-character lines, or by
`parseTD1` on three 30-character lines, has `verification_status = VALID`
exactly when its error list is empty. -/
theorem verification_status_valid_iff_no_errors
    (a b x y z : List Char)
    (ha : a.length = 44) (hb : b.length = 44)
    (hx : x.length = 30) (hy : y.length = 30) (hz : z.length = 30) :
    ((parseTD3 [a, b]).verification_status = VStatus.VALID ↔ (parseTD3 [a, b]).errors = []) ∧
    ((parseTD1 [x, y, z]).verification_status = VStatus.VALID ↔
      (parseTD1 [x, y, z]).errors = []) := by
  constructor
  · simp only [parseTD3]
    exact status_of_errors _
  · simp only [parseTD1]
    exact status_of_errors _

/-- Witness for C2 on concrete TD3 and TD1 line sets. -/
theorem verification_status_valid_iff_no_errors_witness :
    ((parseTD3 ["P<KGZSURNAME<<NAME<<<<<<<<<<<<<<<<<<<<<<<<<<".toList,
                "A1234567<8KGZ9801015M2801015<<<<<<<<<<<<<<06".toList]).verification_status =
        VStatus.VALID ↔
      (parseTD3 ["P<KGZSURNAME<<NAME<<<<<<<<<<<<<<<<<<<<<<<<<<".toList,
                 "A1234567<8KGZ9801015M2801015<<<<<<<<<<<<<<06".toList]).errors = []) ∧
    ((parseTD1 ["I<KGZ12345678<7<<<<<<<<<<<<<<<".toList,
                "9801015M2801017KGZ<<<<<<<<<<<4".toList,
                "NAME<<SURNAME<<<<<<<<<<<<<<<<<".toList]).verification_status =
        VStatus.VALID ↔
      (parseTD1 ["I<KGZ12345678<7<<<<<<<<<<<<<<<".toList,
                 "9801015M2801017KGZ<<<<<<<<<<<4".toList,
                 "NAME<<SURNAME<<<<<<<<<<<<<<<<<".toList]).errors = []) :=
  verification_status_valid_iff_no_errors _ _ _ _ _
    (by decide) (by decide) (by decide) (by decide) (by decide)

/- ===== Claim C7: the century pivot in date formatting ===== -/

/-- C7 (code bug): the century pivot renders `990101` as `1999-01-01`, but
`050101` is rendered as `205-01-01` (the template concatenates `20` with
the unpadded number 5), not as the documented `2005-01-01`. -/
theorem formatYMD_at_pivot_inputs :
    formatYMD "050101".toList = "205-01-01".toList ∧
      formatYMD "990101".toList = "1999-01-01".toList ∧
      formatYMD "050101".toList ≠ "2005-01-01".toList := by
  refine ⟨by decide, by decide, by decide⟩

/- ===== Claim C8: field verification and malformed check digits ===== -/

theorem jsParseInt_single (c : Char) :
    jsParseInt [c] =
      if 48 ≤ c.toNat ∧ c.toNat ≤ 57 then some (c.toNat - 48) else none := by
  unfold jsParseInt
  by_cases h : 48 ≤ c.toNat ∧ c.toNat ≤ 57
  · rw [if_pos h]
    simp [List.takeWhile, isDigitChar, h, digitsVal]
  · rw [if_neg h]
    simp [List.takeWhile, isDigitChar, h]

/-- C8: `verifyField` reports a failure for every non-digit declared check
character (it is never read as 0), and it passes exactly when the computed
7-3-1 digit equals the declared character read as a base-10 digit. -/
theorem verifyField_fails_on_nondigit_and_passes_iff_match
    (fv : List Char) (c : Char) (ty : List Char) (line : Nat) :
    (¬ (48 ≤ c.toNat ∧ c.toNat ≤ 57) → (verifyField fv c ty line).isSome = true) ∧
    (verifyField fv c ty line = none ↔
      ((48 ≤ c.toNat ∧ c.toNat ≤ 57) ∧ calculateCheckDigit fv = c.toNat - 48)) := by
  unfold verifyField
  rw [jsParseInt_single c]
  by_cases h : 48 ≤ c.toNat ∧ c.toNat ≤ 57
  · rw [if_pos h]
    constructor
    · intro hc; exact absurd h hc
    · by_cases hm : calculateCheckDigit fv = c.toNat - 48
      · simp [hm, h]
      · simp [hm]
  · rw [if_neg h]
    constructor
    · intro _; rfl
    · simp only [reduceCtorEq, false_iff]
      intro hcontra
      exact h hcontra.1

/-- Witness for C8: a filler check character always fails; a correct digit
check character passes. -/
theorem verifyField_fails_on_nondigit_witness :
    (verifyField "520727".toList '<' "Document Number".toList 2).isSome = true ∧
      verifyField "520727".toList '3' "Document Number".toList 2 = none :=
  ⟨(verifyField_fails_on_nondigit_and_passes_iff_match
      "520727".toList '<' "Document Number".toList 2).1 (by decide),
   (verifyField_fails_on_nondigit_and_passes_iff_match
      "520727".toList '3' "Document Number".toList 2).2.mpr (by decide)⟩

/- ===== Line extractor (claim C4) ===== -/

/-- JavaScript `text.split('\n')`. -/
def splitNewlines : List Char → List (List Char)
  | [] => [[]]
  | c :: rest =>
      if c = '\n' then [] :: splitNewlines rest
      else
        match splitNewlines rest with
        | [] => [[c]]
        | p :: ps => (c :: p) :: ps

/-- JavaScript `s.replace(/\s/g, '')`. -/
def stripWs (l : List Char) : List Char :=
  l.filter (fun c => !(jsSpace c))

/-- The test `/[A-Z0-9<]/.test(s)` of the extractor. -/
def hasMrzChars (l : List Char) : Bool :=
  l.any (fun c =>
    decide ((65 ≤ c.toNat ∧ c.toNat ≤ 90) ∨ (48 ≤ c.toNat ∧ c.toNat ≤ 57) ∨ c = '<'))

/-- The chevron count `(s.match(/</g) || []).length` of the extractor. -/
def chevronCount (l : List Char) : Nat :=
  (l.filter (fun c => decide (c = '<'))).length

/-- The filter predicate of source `extractMrzFromText`, applied to a
trimmed line. -/
def keepLine (line : List Char) : Bool :=
  let cleanLine := stripWs line
  hasMrzChars cleanLine &&
    decide (20 ≤ cleanLine.length ∧ cleanLine.length ≤ 100) &&
    (decide (2 ≤ chevronCount cleanLine) || decide (cleanLine.length = 30) ||
      decide (cleanLine.length = 36) || decide (cleanLine.length = 44))

/-- Source `extractMrzFromText`: split, trim, filter by MRZ shape, then
return the kept lines stripped of whitespace and upper-cased. -/
def extractMrzFromText (text : List Char) : List (List Char) :=
  let lines := (splitNewlines text).map jsTrim
  let mrzLines := lines.filter keepLine
  mrzLines.map (fun l => (stripWs l).map Char.toUpper)

/- ===== Line normalizer (claims C5, C6) ===== -/

/-- Capital-letter test `[A-Z]`. -/
def isUpperLetter (c : Char) : Bool :=
  decide (65 ≤ c.toNat ∧ c.toNat ≤ 90)

/-- Character class `[A-Z<]`. -/
def isAZltChar (c : Char) : Bool :=
  isUpperLetter c || decide (c = '<')

/-- Character class `[SLCK]` of the leading-document-type repair. -/
def isSLCK (c : Char) : Bool :=
  decide (c = 'S' ∨ c = 'L' ∨ c = 'C' ∨ c = 'K')

/-- The test `/^P[SLCK][A-Z<]{3}/` (or with another leading character). -/
def startsPI (p : Char) : List Char → Bool
  | a :: b :: c :: d :: e :: _ =>
      decide (a = p) && isSLCK b && isAZltChar c && isAZltChar d && isAZltChar e
  | _ => false

/-- Rule 1 of source `cleanMrzLine`: force the second column to `<` after a
leading `P` or `I` followed by an OCR confusable. -/
def fixStart (l : List Char) : List Char :=
  let s1 := if startsPI 'P' l then 'P' :: '<' :: l.drop 2 else l
  if startsPI 'I' s1 then 'I' :: '<' :: s1.drop 2 else s1

/-- Lookahead `(?=[A-Z])` on the remainder of the line. -/
def headIsLetter : List Char → Bool
  | c :: _ => isUpperLetter c
  | [] => false

/-- Mid-string scan of the global replace
`replace(/(^|[^<])<[CL](?=[A-Z])/g, '$1<<')`: each window `a <[CL]` with
`a ≠ '<'` and an upper-case letter following is collapsed, and the scan
resumes at the lookahead character. -/
def sepFixAux : List Char → List Char
  | a :: b :: c :: rest =>
      if a ≠ '<' ∧ b = '<' ∧ (c = 'C' ∨ c = 'L') ∧ headIsLetter rest = true then
        a :: '<' :: '<' :: sepFixAux rest
      else a :: sepFixAux (b :: c :: rest)
  | a :: rest => a :: sepFixAux rest
  | [] => []

/-- Rule 2 of source `cleanMrzLine` (separator repair): the `^` alternative
of the regex applies only at the very start of the line, the rest of the
scan is `sepFixAux`. -/
def fixSeparators (l : List Char) : List Char :=
  match l with
  | b :: c :: rest =>
      if b = '<' ∧ (c = 'C' ∨ c = 'L') ∧ headIsLetter rest = true then
        '<' :: '<' :: sepFixAux rest
      else sepFixAux l
  | _ => sepFixAux l

/-- Character class `[LCK<]` of the trailing-filler repair. -/
def isTailRunChar (c : Char) : Bool :=
  decide (c = 'L' ∨ c = 'C' ∨ c = 'K' ∨ c = '<')

/-- Character class `[LCK]`. -/
def isLCK (c : Char) : Bool :=
  decide (c = 'L' ∨ c = 'C' ∨ c = 'K')

/-- The maximal trailing run of `[LCK<]` characters (the leftmost match of
`/[LCK<]{3,}$/` when it is at least 3 long). -/
def tailRun (l : List Char) : List Char :=
  (l.reverse.takeWhile isTailRunChar).reverse

/-- Everything before `tailRun`. -/
def tailFront (l : List Char) : List Char :=
  (l.reverse.dropWhile isTailRunChar).reverse

/-- Rule 3 of source `cleanMrzLine` (trailing-filler repair): if the
trailing `[LCK<]` run is at least 3 long and contains a letter, replace the
letters inside the run by fillers. -/
def fixTail (l : List Char) : List Char :=
  let run := tailRun l
  if 3 ≤ run.length ∧ run.any isLCK then
    tailFront l ++ run.map (fun c => if isLCK c then '<' else c)
  else l

/-- Two-character test `s.startsWith('P<')` (or another pair). -/
def startsWith2 (p q : Char) : List Char → Bool
  | a :: b :: _ => decide (a = p ∧ b = q)
  | _ => false

/-- JavaScript `s.padEnd(n, '<')`. -/
def padEndLt (l : List Char) (n : Nat) : List Char :=
  l ++ List.replicate (n - l.length) '<'

/-- Rule 4 of source `cleanMrzLine` (length repair): right-pad short `P<`
lines to 44 and short `I<` lines to 30. -/
def fixLength (l : List Char) : List Char :=
  let s1 := if startsWith2 'P' '<' l ∧ l.length < 44 ∧ 30 < l.length then padEndLt l 44 else l
  if startsWith2 'I' '<' s1 ∧ s1.length < 30 ∧ 20 < s1.length then padEndLt s1 30 else s1

/-- Source `cleanMrzLine`: upper-case, then the four ordered repair rules. -/
def cleanMrzLine (l : List Char) : List Char :=
  fixLength (fixTail (fixSeparators (fixStart (l.map Char.toUpper))))

/- ===== Claim C4: the extractor keeps exactly the MRZ-shaped lines ===== -/

/-- The keep condition as worded by the specification, on the
whitespace-stripped line: at least one MRZ-alphabet character, stripped
length between 20 and 100, and at least two fillers or an exact length of
30, 36 or 44. -/
def specKeepLine (s : List Char) : Prop :=
  (∃ c ∈ s, (65 ≤ c.toNat ∧ c.toNat ≤ 90) ∨ (48 ≤ c.toNat ∧ c.toNat ≤ 57) ∨ c = '<') ∧
    (20 ≤ s.length ∧ s.length ≤ 100) ∧
    (2 ≤ List.count '<' s ∨ s.length = 30 ∨ s.length = 36 ∨ s.length = 44)

instance (s : List Char) : Decidable (specKeepLine s) := by
  unfold specKeepLine
  infer_instance

theorem chevronCount_eq_count (s : List Char) : chevronCount s = List.count '<' s := by
  unfold chevronCount
  rw [List.count_eq_countP, List.countP_eq_length_filter]
  congr 1

theorem keepLine_eq_spec (l : List Char) :
    keepLine l = decide (specKeepLine (stripWs l)) := by
  rw [Bool.eq_iff_iff]
  simp only [keepLine, specKeepLine, hasMrzChars, chevronCount_eq_count,
    Bool.and_eq_true, Bool.or_eq_true, decide_eq_true_eq, List.any_eq_true]
  aesop

/-- C4: the extractor splits on line breaks, trims, and keeps a line
exactly when its whitespace-stripped form satisfies the three spec
conditions; the output is the stripped, upper-cased form of the kept lines
in their original order (a filter of a map never duplicates or reorders). -/
theorem extractMrzFromText_keeps_exactly_spec_lines (text : List Char) :
    extractMrzFromText text =
      (((splitNewlines text).map jsTrim).filter
        (fun l => decide (specKeepLine (stripWs l)))).map
          (fun l => (stripWs l).map Char.toUpper) := by
  show (((splitNewlines text).map jsTrim).filter keepLine).map
      (fun l => (stripWs l).map Char.toUpper) = _
  rw [List.filter_congr (fun l _ => keepLine_eq_spec l)]

/-- Guard on the character two before the candidate `[CL]` position: the
regex alternative `(^|[^<])` admits the start of the string or any
non-filler character. -/
def sepGuard : Option Char → Prop
  | none => True
  | some a => a ≠ '<'

instance (o : Option Char) : Decidable (sepGuard o) := by
  unfold sepGuard
  cases o <;> infer_instance

/-- Positional reading of the separator repair as the claim words it,
with no guard: rewrite `C`/`L` to `<` whenever the previous character is a
filler and the next is a letter.  `p1` carries the previous character of
the original line. -/
def specSepAllGo (p1 : Option Char) : List Char → List Char
  | [] => []
  | c :: rest =>
      (if (c = 'C' ∨ c = 'L') ∧ p1 = some '<' ∧ headIsLetter rest = true then '<' else c) ::
        specSepAllGo (some c) rest

/-- The claim's version of the separator repair: every occurrence is
rewritten, also when the filler before it is itself preceded by a filler. -/
def specSepAll (l : List Char) : List Char :=
  specSepAllGo none l

/-- Positional reading of the separator repair with the source's guard:
the filler before the rewritten letter must be at the start of the line or
preceded by a non-filler.  `p2`/`p1` carry the two previous characters of
the original line. -/
def specSepGo (p2 p1 : Option Char) : List Char → List Char
  | [] => []
  | c :: rest =>
      (if (c = 'C' ∨ c = 'L') ∧ p1 = some '<' ∧ sepGuard p2 ∧ headIsLetter rest = true
       then '<' else c) :: specSepGo p1 (some c) rest

/-- Guarded positional separator repair on a whole line. -/
def specSepGuarded (l : List Char) : List Char :=
  specSepGo none none l

/-- Invariant of the left-to-right scan: no rewrite is due at the current
position (`p2`,`p1` are the two original characters before `s`), and no
rewrite is due at the next position by way of a filler at the head. -/
def sepInv (p2 p1 : Option Char) (s : List Char) : Prop :=
  (match s with
   | c :: rest => ¬((c = 'C' ∨ c = 'L') ∧ p1 = some '<' ∧ sepGuard p2 ∧ headIsLetter rest = true)
   | [] => True) ∧
  (match s with
   | c :: d :: rest => ¬(c = '<' ∧ (d = 'C' ∨ d = 'L') ∧ sepGuard p1 ∧ headIsLetter rest = true)
   | _ => True)

theorem specSepGo_cons (p2 p1 : Option Char) (c : Char) (rest : List Char) :
    specSepGo p2 p1 (c :: rest) =
      (if (c = 'C' ∨ c = 'L') ∧ p1 = some '<' ∧ sepGuard p2 ∧ headIsLetter rest = true
       then '<' else c) :: specSepGo p1 (some c) rest := rfl

theorem sepFixAux_three (a b c : Char) (rest : List Char) :
    sepFixAux (a :: b :: c :: rest) =
      if a ≠ '<' ∧ b = '<' ∧ (c = 'C' ∨ c = 'L') ∧ headIsLetter rest = true then
        a :: '<' :: '<' :: sepFixAux rest
      else a :: sepFixAux (b :: c :: rest) := by
  rfl

theorem not_lt_cl : ¬('<' = 'C' ∨ '<' = 'L') := by decide

theorem sepFixAux_eq_specSepGo (n : Nat) :
    ∀ (s : List Char) (p2 p1 : Option Char), s.length ≤ n → sepInv p2 p1 s →
      sepFixAux s = specSepGo p2 p1 s := by
  induction n with
  | zero =>
      intro s p2 p1 hlen _
      have hs : s = [] := List.eq_nil_of_length_eq_zero (Nat.le_zero.mp hlen)
      subst hs
      rfl
  | succ n ih =>
      intro s p2 p1 hlen hinv
      match s with
      | [] => rfl
      | [a] =>
          rw [specSepGo_cons, if_neg hinv.1]
          rfl
      | [a, b] =>
          rw [specSepGo_cons, if_neg hinv.1, specSepGo_cons, if_neg]
          · rfl
          · intro hcon
            simp [headIsLetter] at hcon
      | a :: b :: c :: rest =>
          rw [sepFixAux_three]
          by_cases hC : a ≠ '<' ∧ b = '<' ∧ (c = 'C' ∨ c = 'L') ∧ headIsLetter rest = true
          · rw [if_pos hC]
            obtain ⟨ha, hb, hc, hrest⟩ := hC
            subst hb
            have hA : ¬((a = 'C' ∨ a = 'L') ∧ p1 = some '<' ∧ sepGuard p2 ∧
                headIsLetter ('<' :: c :: rest) = true) := by
              intro hcon
              have := hcon.2.2.2
              simp [headIsLetter, isUpperLetter] at this
            have hB : ¬(('<' = 'C' ∨ '<' = 'L') ∧ some a = some '<' ∧ sepGuard p1 ∧
                headIsLetter (c :: rest) = true) := fun hcon => not_lt_cl hcon.1
            have hCC : (c = 'C' ∨ c = 'L') ∧ (some '<' : Option Char) = some '<' ∧
                sepGuard (some a) ∧ headIsLetter rest = true := ⟨hc, rfl, ha, hrest⟩
            rw [specSepGo_cons, if_neg hA, specSepGo_cons, if_neg hB, specSepGo_cons,
              if_pos hCC]
            have hlen2 : rest.length ≤ n := by
              simp only [List.length_cons] at hlen
              omega
            have hinv2 : sepInv (some '<') (some c) rest := by
              constructor
              · match rest with
                | [] => trivial
                | r :: rs =>
                    intro hcon
                    have h1 := hcon.2.1
                    rcases hc with h2 | h2 <;> rw [h2] at h1 <;> simp at h1
              · match rest with
                | [] => trivial
                | [r] => trivial
                | r :: r2 :: rs =>
                    intro hcon
                    rw [hcon.1] at hrest
                    simp [headIsLetter, isUpperLetter] at hrest
            rw [ih rest (some '<') (some c) hlen2 hinv2]
          · rw [if_neg hC]
            rw [specSepGo_cons, if_neg hinv.1]
            have hlen2 : (b :: c :: rest).length ≤ n := by
              simp only [List.length_cons] at hlen ⊢
              omega
            have hinv2 : sepInv p1 (some a) (b :: c :: rest) := by
              constructor
              · intro hcon
                exact hinv.2 ⟨by simpa using hcon.2.1, hcon.1, hcon.2.2.1, hcon.2.2.2⟩
              · intro hcon
                exact hC ⟨by simpa using hcon.2.2.1, hcon.1, hcon.2.1, hcon.2.2.2⟩
            rw [ih (b :: c :: rest) p1 (some a) hlen2 hinv2]

theorem fixSeparators_eq_guarded (l : List Char) : fixSeparators l = specSepGuarded l := by
  unfold fixSeparators specSepGuarded
  match l with
  | [] => rfl
  | [x] =>
      rw [specSepGo_cons, if_neg]
      · rfl
      · intro hcon
        simp at hcon
  | b :: c :: rest =>
      show (if b = '<' ∧ (c = 'C' ∨ c = 'L') ∧ headIsLetter rest = true then
          '<' :: '<' :: sepFixAux rest
        else sepFixAux (b :: c :: rest)) = specSepGo none none (b :: c :: rest)
      by_cases hS : b = '<' ∧ (c = 'C' ∨ c = 'L') ∧ headIsLetter rest = true
      · rw [if_pos hS]
        obtain ⟨hb, hc, hrest⟩ := hS
        subst hb
        have hA : ¬(('<' = 'C' ∨ '<' = 'L') ∧ (none : Option Char) = some '<' ∧
            sepGuard (none : Option Char) ∧ headIsLetter (c :: rest) = true) :=
          fun hcon => not_lt_cl hcon.1
        have hB : (c = 'C' ∨ c = 'L') ∧ (some '<' : Option Char) = some '<' ∧
            sepGuard (none : Option Char) ∧ headIsLetter rest = true :=
          ⟨hc, rfl, trivial, hrest⟩
        rw [specSepGo_cons, if_neg hA, specSepGo_cons, if_pos hB]
        have hinv : sepInv (some '<') (some c) rest := by
          constructor
          · match rest with
            | [] => trivial
            | r :: rs =>
                intro hcon
                have h1 := hcon.2.1
                rcases hc with h2 | h2 <;> rw [h2] at h1 <;> simp at h1
          · match rest with
            | [] => trivial
            | [r] => trivial
            | r :: r2 :: rs =>
                intro hcon
                rw [hcon.1] at hrest
                simp [headIsLetter, isUpperLetter] at hrest
        rw [sepFixAux_eq_specSepGo rest.length rest (some '<') (some c) le_rfl hinv]
      · rw [if_neg hS]
        have hinv : sepInv (none : Option Char) (none : Option Char) (b :: c :: rest) := by
          constructor
          · intro hcon
            simp at hcon
          · intro hcon
            exact hS ⟨hcon.1, hcon.2.1, hcon.2.2.2⟩
        rw [sepFixAux_eq_specSepGo (b :: c :: rest).length (b :: c :: rest) none none
          le_rfl hinv]

/-- C5 (counterexample): in `<<CA` the second filler is followed by `C`
and then a letter, but the source regex requires the filler to be at the
start of the line or preceded by a non-filler, so nothing is rewritten;
the claim's all-occurrences reading would produce `<<<A`. -/
theorem separator_repair_skips_filler_preceded_occurrence :
    fixSeparators "<<CA".toList = "<<CA".toList ∧
      specSepAll "<<CA".toList = "<<<A".toList ∧
      fixSeparators "<<CA".toList ≠ specSepAll "<<CA".toList :=
  ⟨by decide, by decide, by decide⟩

/-- C5 (amended): the separator repair rewrites an occurrence `<C`/`<L`
followed by a letter exactly when the filler is at the start of the line
or preceded by a non-filler character; an occurrence whose filler is
preceded by another filler is left unchanged. -/
theorem separator_repair_rewrites_guarded_occurrences (l : List Char) :
    fixSeparators l = specSepGuarded l :=
  fixSeparators_eq_guarded l

/-- Index of the first `<<` separator of a name zone (position of its
first filler), if any. -/
def findSepIdx : List Char → Option Nat
  | [] => none
  | [_] => none
  | c :: d :: rest =>
      if c = '<' ∧ d = '<' then some 0
      else (findSepIdx (d :: rest)).map (· + 1)

/-- Text before the first `<<` separator (the whole zone when there is
none). -/
def specBeforeSep (l : List Char) : List Char :=
  match findSepIdx l with
  | some i => l.take i
  | none => l

/-- Surname as worded by the specification: the rendered text before the
first `<<`. -/
def specSurnameOfZone (zone : List Char) : List Char :=
  renderName (specBeforeSep zone)

/-- Given names as in the amended claim: the rendered text strictly
between the first `<<` and the next `<<` after it (all remaining text when
no second separator occurs; empty when there is no separator at all). -/
def specGivenNamesOfZone (zone : List Char) : List Char :=
  match findSepIdx zone with
  | none => []
  | some i => renderName (specBeforeSep (zone.drop (i + 2)))

/-- Given names as worded by the original claim: the rendered text of the
entire remainder after the first `<<`. -/
def claimGivenNamesOfZone (zone : List Char) : List Char :=
  match findSepIdx zone with
  | none => []
  | some i => renderName (zone.drop (i + 2))

theorem splitSep_ne_nil : ∀ l : List Char, splitSep l ≠ [] := by
  intro l
  match l with
  | [] => simp [splitSep]
  | [c] => simp [splitSep]
  | c :: d :: rest =>
      show (if c = '<' ∧ d = '<' then [] :: splitSep rest
        else match splitSep (d :: rest) with
          | [] => [[c]]
          | p :: ps => (c :: p) :: ps) ≠ []
      by_cases h : c = '<' ∧ d = '<'
      · simp [h]
      · rw [if_neg h]
        match hs : splitSep (d :: rest) with
        | [] => exact List.cons_ne_nil _ _
        | p :: ps => exact List.cons_ne_nil _ _

theorem splitSep_head (n : Nat) :
    ∀ l : List Char, l.length ≤ n → (splitSep l).headD [] = specBeforeSep l := by
  induction n with
  | zero =>
      intro l hlen
      have hl : l = [] := List.eq_nil_of_length_eq_zero (Nat.le_zero.mp hlen)
      subst hl
      rfl
  | succ n ih =>
      intro l hlen
      match l with
      | [] => rfl
      | [c] => rfl
      | c :: d :: rest =>
          show ((if c = '<' ∧ d = '<' then [] :: splitSep rest
            else match splitSep (d :: rest) with
              | [] => [[c]]
              | p :: ps => (c :: p) :: ps).headD []) = specBeforeSep (c :: d :: rest)
          have hfind : findSepIdx (c :: d :: rest) =
              if c = '<' ∧ d = '<' then some 0
              else (findSepIdx (d :: rest)).map (· + 1) := rfl
          by_cases h : c = '<' ∧ d = '<'
          · rw [if_pos h]
            unfold specBeforeSep
            rw [hfind, if_pos h]
            rfl
          · rw [if_neg h]
            have hlen2 : (d :: rest).length ≤ n := by
              simp only [List.length_cons] at hlen ⊢
              omega
            have hih := ih (d :: rest) hlen2
            unfold specBeforeSep
            rw [hfind, if_neg h]
            match hs : splitSep (d :: rest) with
            | [] => exact absurd hs (splitSep_ne_nil _)
            | p :: ps =>
                rw [hs] at hih
                unfold specBeforeSep at hih
                simp only [List.headD_cons] at hih ⊢
                match hf : findSepIdx (d :: rest) with
                | none =>
                    rw [hf] at hih
                    have hp : p = d :: rest := hih
                    show c :: p = c :: d :: rest
                    rw [hp]
                | some i =>
                    rw [hf] at hih
                    have hp : p = List.take i (d :: rest) := hih
                    show c :: p = List.take (i + 1) (c :: d :: rest)
                    rw [List.take_succ_cons, hp]

theorem getD_zero_eq_headD (l : List (List Char)) : l.getD 0 [] = l.headD [] := by
  cases l <;> rfl

theorem splitSep_second (n : Nat) :
    ∀ l : List Char, l.length ≤ n →
      (if 1 < (splitSep l).length then renderName ((splitSep l).getD 1 []) else []) =
        specGivenNamesOfZone l := by
  induction n with
  | zero =>
      intro l hlen
      have hl : l = [] := List.eq_nil_of_length_eq_zero (Nat.le_zero.mp hlen)
      subst hl
      rfl
  | succ n ih =>
      intro l hlen
      match l with
      | [] => rfl
      | [c] => rfl
      | c :: d :: rest =>
          by_cases h : c = '<' ∧ d = '<'
          · have hsc : splitSep (c :: d :: rest) = [] :: splitSep rest := by
              show (if c = '<' ∧ d = '<' then [] :: splitSep rest
                else match splitSep (d :: rest) with
                  | [] => [[c]]
                  | p :: ps => (c :: p) :: ps) = _
              rw [if_pos h]
            have hspec : specGivenNamesOfZone (c :: d :: rest) =
                renderName (specBeforeSep rest) := by
              unfold specGivenNamesOfZone
              have hfind : findSepIdx (c :: d :: rest) = some 0 := by
                show (if c = '<' ∧ d = '<' then some 0
                  else (findSepIdx (d :: rest)).map (· + 1)) = some 0
                rw [if_pos h]
              rw [hfind]
              rfl
            rw [hsc, hspec]
            have hpos : 1 < ([] :: splitSep rest).length := by
              simp only [List.length_cons]
              have := splitSep_ne_nil rest
              cases hsr : splitSep rest with
              | nil => exact absurd hsr this
              | cons p ps => simp [hsr]
            rw [if_pos hpos]
            have hlen2 : rest.length ≤ n := by
              simp only [List.length_cons] at hlen
              omega
            rw [List.getD_cons_succ, getD_zero_eq_headD,
              splitSep_head n rest (by omega)]
          · have hlen2 : (d :: rest).length ≤ n := by
              simp only [List.length_cons] at hlen ⊢
              omega
            obtain ⟨p, ps, hs⟩ : ∃ p ps, splitSep (d :: rest) = p :: ps := by
              cases hsr : splitSep (d :: rest) with
              | nil => exact absurd hsr (splitSep_ne_nil _)
              | cons p ps => exact ⟨p, ps, rfl⟩
            have hsc : splitSep (c :: d :: rest) = (c :: p) :: ps := by
              show (if c = '<' ∧ d = '<' then [] :: splitSep rest
                else match splitSep (d :: rest) with
                  | [] => [[c]]
                  | p :: ps => (c :: p) :: ps) = _
              rw [if_neg h, hs]
            have hih := ih (d :: rest) hlen2
            rw [hs] at hih
            rw [hsc]
            simp only [List.length_cons, List.getD_cons_succ] at hih ⊢
            have hspec : specGivenNamesOfZone (c :: d :: rest) =
                specGivenNamesOfZone (d :: rest) := by
              unfold specGivenNamesOfZone
              have hfind : findSepIdx (c :: d :: rest) =
                  (findSepIdx (d :: rest)).map (· + 1) := by
                show (if c = '<' ∧ d = '<' then some 0
                  else (findSepIdx (d :: rest)).map (· + 1)) = _
                rw [if_neg h]
              rw [hfind]
              match hf : findSepIdx (d :: rest) with
              | none => rfl
              | some i =>
                  simp only [Option.map_some]
                  rfl
            rw [hspec, ← hih]

/-- C9 (counterexample): with a name zone `DOE<<JOHN<<SMITH...`, the
decoder's given-names field is `JOHN` — the text between the first and the
second `<<` — not the rendered entire remainder `JOHN  SMITH` that the
claim describes. -/
theorem given_names_not_entire_remainder :
    (parseTD3 ["P<UTODOE<<JOHN<<SMITH<<<<<<<<<<<<<<<<<<<<<<<".toList,
        "A1234567<8KGZ9801015M2801015<<<<<<<<<<<<<<06".toList]).names.given_names =
      "JOHN".toList ∧
    claimGivenNamesOfZone
        (substr "P<UTODOE<<JOHN<<SMITH<<<<<<<<<<<<<<<<<<<<<<<".toList 5 44) =
      "JOHN  SMITH".toList ∧
    (parseTD3 ["P<UTODOE<<JOHN<<SMITH<<<<<<<<<<<<<<<<<<<<<<<".toList,
        "A1234567<8KGZ9801015M2801015<<<<<<<<<<<<<<06".toList]).names.given_names ≠
      claimGivenNamesOfZone
        (substr "P<UTODOE<<JOHN<<SMITH<<<<<<<<<<<<<<<<<<<<<<<".toList 5 44) :=
  ⟨by decide, by decide, by decide⟩

/-- C9 (amended): in both decoders the name zone is split on the first
`<<`: the surname is the rendered text before it, and the given-names
field is the rendered text strictly between the first `<<` and the next
`<<` after it (the entire remaining text only when no second separator
occurs, and empty when there is no separator at all).  For TD1 the zone is
the third line with its trailing fillers stripped. -/
theorem name_zone_split_between_first_and_second_sep (lines : List (List Char)) :
    ((parseTD3 lines).names.surname =
        specSurnameOfZone (substr (lines.getD 0 []) 5 44) ∧
      (parseTD3 lines).names.given_names =
        specGivenNamesOfZone (substr (lines.getD 0 []) 5 44)) ∧
    ((parseTD1 lines).names.surname =
        specSurnameOfZone (trimTrailingLt (lines.getD 2 [])) ∧
      (parseTD1 lines).names.given_names =
        specGivenNamesOfZone (trimTrailingLt (lines.getD 2 []))) := by
  refine ⟨⟨?_, ?_⟩, ⟨?_, ?_⟩⟩
  · show renderName ((splitSep (substr (lines.getD 0 []) 5 44)).headD []) = _
    rw [splitSep_head (substr (lines.getD 0 []) 5 44).length _ le_rfl]
    rfl
  · show (if 1 < (splitSep (substr (lines.getD 0 []) 5 44)).length then
        renderName ((splitSep (substr (lines.getD 0 []) 5 44)).getD 1 []) else []) = _
    rw [splitSep_second (substr (lines.getD 0 []) 5 44).length _ le_rfl]
  · show renderName ((splitSep (trimTrailingLt (lines.getD 2 []))).headD []) = _
    rw [splitSep_head (trimTrailingLt (lines.getD 2 [])).length _ le_rfl]
    rfl
  · show (if 1 < (splitSep (trimTrailingLt (lines.getD 2 []))).length then
        renderName ((splitSep (trimTrailingLt (lines.getD 2 []))).getD 1 []) else []) = _
    rw [splitSep_second (trimTrailingLt (lines.getD 2 [])).length _ le_rfl]

/- ===== Format resolver (claims C3, C10) ===== -/

/-- Source `tryParseCustom`: decode a block as TD3 (2 lines of 44) or TD1
(3 lines of 30), otherwise decline. -/
def tryParseCustom (lines : List (List Char)) : Option UnifiedMrzResult :=
  if lines.length = 2 ∧ (lines.getD 0 []).length = 44 ∧ (lines.getD 1 []).length = 44 then
    some (parseTD3 lines)
  else if lines.length = 3 ∧ (lines.getD 0 []).length = 30 ∧
      (lines.getD 1 []).length = 30 ∧ (lines.getD 2 []).length = 30 then
    some (parseTD1 lines)
  else none

/-- Source `getCandidates`: the line itself when it has the target length,
every contiguous window of the target length when it is longer. -/
def getCandidates (line : List Char) (targetLen : Nat) : List (List Char) :=
  (if line.length = targetLen then [line] else []) ++
    (if targetLen < line.length then
      (List.range (line.length - targetLen + 1)).map (fun i => substr line i (i + targetLen))
    else [])

/-- The test `result && result.verification_status === 'VALID'`. -/
def isValidO : Option UnifiedMrzResult → Bool
  | some r => decide (r.verification_status = VStatus.VALID)
  | none => false

/-- The test `!result || result.verification_status === 'INVALID'`. -/
def notYetValid : Option UnifiedMrzResult → Bool
  | none => true
  | some r => decide (r.verification_status = VStatus.INVALID)

/-- Inner loop of the TD3 attempt over line-2 candidates: a VALID decode
is returned at once (break), any other decode overwrites the running
result. -/
def td3Inner (res : Option UnifiedMrzResult) (c1 : List Char) :
    List (List Char) → Option UnifiedMrzResult
  | [] => res
  | c2 :: rest =>
      match tryParseCustom [c1, c2] with
      | some r =>
          if r.verification_status = VStatus.VALID then some r
          else td3Inner (some r) c1 rest
      | none => td3Inner res c1 rest

/-- Outer loop of the TD3 attempt over line-1 candidates, breaking once
the running result is VALID. -/
def td3Outer (res : Option UnifiedMrzResult) (c1s c2s : List (List Char)) :
    Option UnifiedMrzResult :=
  match c1s with
  | [] => res
  | c1 :: rest =>
      let r := td3Inner res c1 c2s
      if isValidO r then r else td3Outer r rest c2s

/-- JavaScript `ls.slice(-n)`. -/
def lastN (n : Nat) (ls : List (List Char)) : List (List Char) :=
  ls.drop (ls.length - n)

/-- The TD3 attempt of source `processMrz`: the candidate cross-product
over the last two lines at width 44. -/
def td3Attempt (ls : List (List Char)) : Option UnifiedMrzResult :=
  td3Outer none (getCandidates ((lastN 2 ls).getD 0 []) 44)
    (getCandidates ((lastN 2 ls).getD 1 []) 44)

/-- Innermost loop of the TD1 attempt: a VALID decode is returned at once,
any other decode is kept only when there is no result yet. -/
def td1Inner (res : Option UnifiedMrzResult) (c1 c2 : List Char) :
    List (List Char) → Option UnifiedMrzResult
  | [] => res
  | c3 :: rest =>
      match tryParseCustom [c1, c2, c3] with
      | some r =>
          if r.verification_status = VStatus.VALID then some r
          else td1Inner (if res.isNone then some r else res) c1 c2 rest
      | none => td1Inner res c1 c2 rest

/-- Middle loop of the TD1 attempt, breaking once the result is VALID. -/
def td1Mid (res : Option UnifiedMrzResult) (c1 : List Char)
    (c2s : List (List Char)) (c3s : List (List Char)) : Option UnifiedMrzResult :=
  match c2s with
  | [] => res
  | c2 :: rest =>
      let r := td1Inner res c1 c2 c3s
      if isValidO r then r else td1Mid r c1 rest c3s

/-- Outer loop of the TD1 attempt, breaking once the result is VALID. -/
def td1Outer (res : Option UnifiedMrzResult) (c1s c2s c3s : List (List Char)) :
    Option UnifiedMrzResult :=
  match c1s with
  | [] => res
  | c1 :: rest =>
      let r := td1Mid res c1 c2s c3s
      if isValidO r then r else td1Outer r rest c2s c3s

/-- The TD1 attempt of source `processMrz`: the candidate cross-product
over the last three lines at width 30, starting from the TD3 result. -/
def td1Attempt (res : Option UnifiedMrzResult) (ls : List (List Char)) :
    Option UnifiedMrzResult :=
  td1Outer res (getCandidates ((lastN 3 ls).getD 0 []) 30)
    (getCandidates ((lastN 3 ls).getD 1 []) 30)
    (getCandidates ((lastN 3 ls).getD 2 []) 30)

/-- The parsing stage of source `processMrz` on the cleaned candidate
lines: a TD3 attempt when at least two lines exist, then a TD1 attempt
when there is no VALID result yet and at least three lines exist. -/
def processMrz (mrzLines : List (List Char)) : Option UnifiedMrzResult :=
  let r3 := if 2 ≤ mrzLines.length then td3Attempt mrzLines else none
  if notYetValid r3 = true ∧ 3 ≤ mrzLines.length then td1Attempt r3 mrzLines
  else r3

/-- First pair (inner dimension) whose decode is VALID, in window order. -/
def firstValidInner (c1 : List Char) : List (List Char) → Option UnifiedMrzResult
  | [] => none
  | c2 :: rest =>
      match tryParseCustom [c1, c2] with
      | some r =>
          if r.verification_status = VStatus.VALID then some r else firstValidInner c1 rest
      | none => firstValidInner c1 rest

/-- First pair of the cross-product whose decode is VALID, in
line-then-window order. -/
def firstValidPair : List (List Char) → List (List Char) → Option UnifiedMrzResult
  | [], _ => none
  | c1 :: rest, c2s =>
      match firstValidInner c1 c2s with
      | some r => some r
      | none => firstValidPair rest c2s

/-- Last pair (inner dimension) that decodes at all, in window order. -/
def lastDecodedInner (c1 : List Char) : List (List Char) → Option UnifiedMrzResult
  | [] => none
  | c2 :: rest =>
      match lastDecodedInner c1 rest with
      | some r => some r
      | none => tryParseCustom [c1, c2]

/-- Last pair of the cross-product that decodes at all, in
line-then-window order. -/
def lastDecodedPair : List (List Char) → List (List Char) → Option UnifiedMrzResult
  | [], _ => none
  | c1 :: rest, c2s =>
      match lastDecodedPair rest c2s with
      | some r => some r
      | none => lastDecodedInner c1 c2s

/-- First pair (inner dimension) that decodes at all. -/
def firstDecodedInner (c1 : List Char) : List (List Char) → Option UnifiedMrzResult
  | [] => none
  | c2 :: rest =>
      match tryParseCustom [c1, c2] with
      | some r => some r
      | none => firstDecodedInner c1 rest

/-- First pair of the cross-product that decodes at all (the fallback the
original claim describes). -/
def firstDecodedPair : List (List Char) → List (List Char) → Option UnifiedMrzResult
  | [], _ => none
  | c1 :: rest, c2s =>
      match firstDecodedInner c1 c2s with
      | some r => some r
      | none => firstDecodedPair rest c2s

theorem firstValidInner_valid (c1 : List Char) :
    ∀ c2s r, firstValidInner c1 c2s = some r → r.verification_status = VStatus.VALID := by
  intro c2s
  induction c2s with
  | nil => intro r h; exact absurd h (by simp [firstValidInner])
  | cons c2 rest ih =>
      intro r h
      match hp : tryParseCustom [c1, c2] with
      | some q =>
          rw [show firstValidInner c1 (c2 :: rest) =
            match tryParseCustom [c1, c2] with
            | some r =>
                if r.verification_status = VStatus.VALID then some r
                else firstValidInner c1 rest
            | none => firstValidInner c1 rest from rfl, hp] at h
          have h2 : (if q.verification_status = VStatus.VALID then some q
              else firstValidInner c1 rest) = some r := h
          by_cases hv : q.verification_status = VStatus.VALID
          · rw [if_pos hv] at h2
            cases h2
            exact hv
          · rw [if_neg hv] at h2
            exact ih r h2
      | none =>
          rw [show firstValidInner c1 (c2 :: rest) =
            match tryParseCustom [c1, c2] with
            | some r =>
                if r.verification_status = VStatus.VALID then some r
                else firstValidInner c1 rest
            | none => firstValidInner c1 rest from rfl, hp] at h
          exact ih r h

theorem lastDecodedInner_invalid (c1 : List Char) :
    ∀ c2s r, firstValidInner c1 c2s = none → lastDecodedInner c1 c2s = some r →
      r.verification_status ≠ VStatus.VALID := by
  intro c2s
  induction c2s with
  | nil => intro r _ h; exact absurd h (by simp [lastDecodedInner])
  | cons c2 rest ih =>
      intro r hf hl
      rw [show firstValidInner c1 (c2 :: rest) =
        match tryParseCustom [c1, c2] with
        | some r =>
            if r.verification_status = VStatus.VALID then some r
            else firstValidInner c1 rest
        | none => firstValidInner c1 rest from rfl] at hf
      rw [show lastDecodedInner c1 (c2 :: rest) =
        match lastDecodedInner c1 rest with
        | some r => some r
        | none => tryParseCustom [c1, c2] from rfl] at hl
      match hp : tryParseCustom [c1, c2] with
      | some q =>
          rw [hp] at hf hl
          have hf2 : (if q.verification_status = VStatus.VALID then some q
              else firstValidInner c1 rest) = none := hf
          by_cases hv : q.verification_status = VStatus.VALID
          · rw [if_pos hv] at hf2
            cases hf2
          · rw [if_neg hv] at hf2
            match hr : lastDecodedInner c1 rest with
            | some d =>
                rw [hr] at hl
                have hl2 : some d = some r := hl
                cases hl2
                exact ih r hf2 hr
            | none =>
                rw [hr] at hl
                have hl2 : some q = some r := hl
                cases hl2
                exact hv
      | none =>
          rw [hp] at hf hl
          match hr : lastDecodedInner c1 rest with
          | some d =>
              rw [hr] at hl
              have hl2 : some d = some r := hl
              cases hl2
              exact ih r hf hr
          | none =>
              rw [hr] at hl
              cases hl

theorem td3Inner_characterization (c1 : List Char) :
    ∀ c2s res, td3Inner res c1 c2s =
      match firstValidInner c1 c2s with
      | some v => some v
      | none =>
          match lastDecodedInner c1 c2s with
          | some d => some d
          | none => res := by
  intro c2s
  induction c2s with
  | nil => intro res; rfl
  | cons c2 rest ih =>
      intro res
      rw [show td3Inner res c1 (c2 :: rest) =
        match tryParseCustom [c1, c2] with
        | some r =>
            if r.verification_status = VStatus.VALID then some r
            else td3Inner (some r) c1 rest
        | none => td3Inner res c1 rest from rfl]
      rw [show firstValidInner c1 (c2 :: rest) =
        match tryParseCustom [c1, c2] with
        | some r =>
            if r.verification_status = VStatus.VALID then some r
            else firstValidInner c1 rest
        | none => firstValidInner c1 rest from rfl]
      rw [show lastDecodedInner c1 (c2 :: rest) =
        match lastDecodedInner c1 rest with
        | some r => some r
        | none => tryParseCustom [c1, c2] from rfl]
      match hp : tryParseCustom [c1, c2] with
      | some q =>
          show (if q.verification_status = VStatus.VALID then some q
              else td3Inner (some q) c1 rest) =
            match (if q.verification_status = VStatus.VALID then some q
                else firstValidInner c1 rest) with
            | some v => some v
            | none =>
                match (match lastDecodedInner c1 rest with
                  | some r => some r
                  | none => some q) with
                | some d => some d
                | none => res
          by_cases hv : q.verification_status = VStatus.VALID
          · rw [if_pos hv, if_pos hv]
          · rw [if_neg hv, if_neg hv, ih (some q)]
            match hf : firstValidInner c1 rest with
            | some v => rfl
            | none =>
                match hr : lastDecodedInner c1 rest with
                | some d => rfl
                | none => rfl
      | none =>
          show td3Inner res c1 rest =
            match firstValidInner c1 rest with
            | some v => some v
            | none =>
                match (match lastDecodedInner c1 rest with
                  | some r => some r
                  | none => none) with
                | some d => some d
                | none => res
          rw [ih res]
          match hf : firstValidInner c1 rest with
          | some v => rfl
          | none =>
              match hr : lastDecodedInner c1 rest with
              | some d => rfl
              | none => rfl

theorem td3Outer_characterization :
    ∀ (c1s c2s : List (List Char)) (res : Option UnifiedMrzResult),
      isValidO res = false →
      td3Outer res c1s c2s =
        match firstValidPair c1s c2s with
        | some v => some v
        | none =>
            match lastDecodedPair c1s c2s with
            | some d => some d
            | none => res := by
  intro c1s
  induction c1s with
  | nil => intro c2s res _; rfl
  | cons c1 rest ih =>
      intro c2s res hres
      rw [show td3Outer res (c1 :: rest) c2s =
        (if isValidO (td3Inner res c1 c2s) = true then td3Inner res c1 c2s
         else td3Outer (td3Inner res c1 c2s) rest c2s) from rfl]
      rw [show firstValidPair (c1 :: rest) c2s =
        match firstValidInner c1 c2s with
        | some r => some r
        | none => firstValidPair rest c2s from rfl]
      rw [show lastDecodedPair (c1 :: rest) c2s =
        match lastDecodedPair rest c2s with
        | some r => some r
        | none => lastDecodedInner c1 c2s from rfl]
      rw [td3Inner_characterization c1 c2s res]
      match hf : firstValidInner c1 c2s with
      | some v =>
          have hv : v.verification_status = VStatus.VALID := firstValidInner_valid c1 c2s v hf
          rw [if_pos (by simp [isValidO, hv])]
      | none =>
          match hr : lastDecodedInner c1 c2s with
          | some d =>
              have hd : d.verification_status ≠ VStatus.VALID :=
                lastDecodedInner_invalid c1 c2s d hf hr
              rw [if_neg (by simp [isValidO, hd]), ih c2s (some d) (by simp [isValidO, hd])]
              match hfp : firstValidPair rest c2s with
              | some v => rfl
              | none =>
                  match hlp : lastDecodedPair rest c2s with
                  | some d2 => rfl
                  | none => rfl
          | none =>
              rw [if_neg (by simp [hres]), ih c2s res hres]
              match hfp : firstValidPair rest c2s with
              | some v => rfl
              | none =>
                  match hlp : lastDecodedPair rest c2s with
                  | some d2 => rfl
                  | none => rfl

theorem option_match_collapse (o : Option UnifiedMrzResult) :
    (match o with
      | some d => some d
      | none => none) = o := by
  cases o <;> rfl

/-- C3 (amended): the TD3 attempt returns the first pair of the
line-then-window cross-product that decodes VALID; when no pair is VALID
it returns the last pair that decodes at all (even INVALID), because each
non-VALID decode in the loop overwrites the previous fallback. -/
theorem td3_attempt_first_valid_else_last_decoded (ls : List (List Char)) :
    td3Attempt ls =
      match firstValidPair (getCandidates ((lastN 2 ls).getD 0 []) 44)
          (getCandidates ((lastN 2 ls).getD 1 []) 44) with
      | some v => some v
      | none =>
          lastDecodedPair (getCandidates ((lastN 2 ls).getD 0 []) 44)
            (getCandidates ((lastN 2 ls).getD 1 []) 44) := by
  unfold td3Attempt
  rw [td3Outer_characterization _ _ none rfl]
  match hf : firstValidPair (getCandidates ((lastN 2 ls).getD 0 []) 44)
      (getCandidates ((lastN 2 ls).getD 1 []) 44) with
  | some v => rfl
  | none => exact option_match_collapse _

/-- C3 (counterexample): two 45-character lines give two windows each; no
pair decodes VALID, the first pair decodes, yet the TD3 attempt does not
keep the first decodable pair — it keeps the last one (each later decode
overwrote the fallback). -/
theorem td3_fallback_is_not_first_decodable_pair :
    firstValidPair
        (getCandidates "0AAAAAAAAAAAAAAAAAAAAAAAAAAAAAAAAAAAAAAAAAAA1".toList 44)
        (getCandidates "1BBBBBBBBBBBBBBBBBBBBBBBBBBBBBBBBBBBBBBBBBBB2".toList 44) = none ∧
    (firstDecodedPair
        (getCandidates "0AAAAAAAAAAAAAAAAAAAAAAAAAAAAAAAAAAAAAAAAAAA1".toList 44)
        (getCandidates "1BBBBBBBBBBBBBBBBBBBBBBBBBBBBBBBBBBBBBBBBBBB2".toList 44)).isSome =
      true ∧
    td3Attempt ["0AAAAAAAAAAAAAAAAAAAAAAAAAAAAAAAAAAAAAAAAAAA1".toList,
        "1BBBBBBBBBBBBBBBBBBBBBBBBBBBBBBBBBBBBBBBBBBB2".toList] ≠
      firstDecodedPair
        (getCandidates "0AAAAAAAAAAAAAAAAAAAAAAAAAAAAAAAAAAAAAAAAAAA1".toList 44)
        (getCandidates "1BBBBBBBBBBBBBBBBBBBBBBBBBBBBBBBBBBBBBBBBBBB2".toList 44) ∧
    td3Attempt ["0AAAAAAAAAAAAAAAAAAAAAAAAAAAAAAAAAAAAAAAAAAA1".toList,
        "1BBBBBBBBBBBBBBBBBBBBBBBBBBBBBBBBBBBBBBBBBBB2".toList] =
      lastDecodedPair
        (getCandidates "0AAAAAAAAAAAAAAAAAAAAAAAAAAAAAAAAAAAAAAAAAAA1".toList 44)
        (getCandidates "1BBBBBBBBBBBBBBBBBBBBBBBBBBBBBBBBBBBBBBBBBBB2".toList 44) :=
  ⟨by decide, by decide, by decide, by decide⟩

theorem parseTD3_document_type (lines : List (List Char)) :
    (parseTD3 lines).document_type = DocType.PASSPORT := rfl

theorem tryParseCustom_pair (c1 c2 : List Char) (r : UnifiedMrzResult)
    (h : tryParseCustom [c1, c2] = some r) : r = parseTD3 [c1, c2] := by
  unfold tryParseCustom at h
  by_cases hl : ([c1, c2] : List (List Char)).length = 2 ∧
      (([c1, c2] : List (List Char)).getD 0 []).length = 44 ∧
      (([c1, c2] : List (List Char)).getD 1 []).length = 44
  · rw [if_pos hl] at h
    cases h
    rfl
  · rw [if_neg hl, if_neg (by simp)] at h
    cases h

theorem td3Inner_passport (c1 : List Char) :
    ∀ (c2s : List (List Char)) (res : Option UnifiedMrzResult) (r : UnifiedMrzResult),
      (∀ u, res = some u → u.document_type = DocType.PASSPORT) →
      td3Inner res c1 c2s = some r → r.document_type = DocType.PASSPORT := by
  intro c2s
  induction c2s with
  | nil =>
      intro res r hres h
      exact hres r h
  | cons c2 rest ih =>
      intro res r hres h
      rw [show td3Inner res c1 (c2 :: rest) =
        match tryParseCustom [c1, c2] with
        | some q =>
            if q.verification_status = VStatus.VALID then some q
            else td3Inner (some q) c1 rest
        | none => td3Inner res c1 rest from rfl] at h
      match hp : tryParseCustom [c1, c2] with
      | some q =>
          rw [hp] at h
          have hq : q.document_type = DocType.PASSPORT := by
            rw [tryParseCustom_pair c1 c2 q hp]
            exact parseTD3_document_type _
          have h2 : (if q.verification_status = VStatus.VALID then some q
              else td3Inner (some q) c1 rest) = some r := h
          by_cases hv : q.verification_status = VStatus.VALID
          · rw [if_pos hv] at h2
            cases h2
            exact hq
          · rw [if_neg hv] at h2
            exact ih (some q) r (fun u hu => by cases hu; exact hq) h2
      | none =>
          rw [hp] at h
          exact ih res r hres h

theorem td3Outer_passport :
    ∀ (c1s c2s : List (List Char)) (res : Option UnifiedMrzResult) (r : UnifiedMrzResult),
      (∀ u, res = some u → u.document_type = DocType.PASSPORT) →
      td3Outer res c1s c2s = some r → r.document_type = DocType.PASSPORT := by
  intro c1s
  induction c1s with
  | nil =>
      intro c2s res r hres h
      exact hres r h
  | cons c1 rest ih =>
      intro c2s res r hres h
      rw [show td3Outer res (c1 :: rest) c2s =
        (if isValidO (td3Inner res c1 c2s) = true then td3Inner res c1 c2s
         else td3Outer (td3Inner res c1 c2s) rest c2s) from rfl] at h
      have hpass : ∀ u, td3Inner res c1 c2s = some u → u.document_type = DocType.PASSPORT :=
        fun u hu => td3Inner_passport c1 c2s res u hres hu
      by_cases hv : isValidO (td3Inner res c1 c2s) = true
      · rw [if_pos hv] at h
        exact hpass r h
      · rw [if_neg hv] at h
        exact ih c2s (td3Inner res c1 c2s) r hpass h

theorem td3Attempt_passport (ls : List (List Char)) (r : UnifiedMrzResult)
    (h : td3Attempt ls = some r) : r.document_type = DocType.PASSPORT :=
  td3Outer_passport _ _ none r (fun u hu => by cases hu) h

theorem td1Inner_pres (c1 c2 : List Char) :
    ∀ (c3s : List (List Char)) (res : Option UnifiedMrzResult) (u : UnifiedMrzResult),
      res = some u →
      (u.document_type = DocType.ID_CARD → u.verification_status = VStatus.VALID) →
      ∃ v, td1Inner res c1 c2 c3s = some v ∧
        (v.document_type = DocType.ID_CARD → v.verification_status = VStatus.VALID) := by
  intro c3s
  induction c3s with
  | nil =>
      intro res u hres hu
      exact ⟨u, by rw [show td1Inner res c1 c2 [] = res from rfl, hres], hu⟩
  | cons c3 rest ih =>
      intro res u hres hu
      rw [show td1Inner res c1 c2 (c3 :: rest) =
        match tryParseCustom [c1, c2, c3] with
        | some q =>
            if q.verification_status = VStatus.VALID then some q
            else td1Inner (if res.isNone then some q else res) c1 c2 rest
        | none => td1Inner res c1 c2 rest from rfl]
      match hp : tryParseCustom [c1, c2, c3] with
      | some q =>
          show ∃ v, (if q.verification_status = VStatus.VALID then some q
              else td1Inner (if res.isNone = true then some q else res) c1 c2 rest) = some v ∧
            (v.document_type = DocType.ID_CARD → v.verification_status = VStatus.VALID)
          by_cases hv : q.verification_status = VStatus.VALID
          · rw [if_pos hv]
            exact ⟨q, rfl, fun _ => hv⟩
          · rw [if_neg hv]
            have hn : res.isNone = false := by rw [hres]; rfl
            rw [hn]
            show ∃ v, td1Inner res c1 c2 rest = some v ∧
              (v.document_type = DocType.ID_CARD → v.verification_status = VStatus.VALID)
            exact ih res u hres hu
      | none =>
          exact ih res u hres hu

theorem td1Mid_pres (c1 : List Char) :
    ∀ (c2s c3s : List (List Char)) (res : Option UnifiedMrzResult) (u : UnifiedMrzResult),
      res = some u →
      (u.document_type = DocType.ID_CARD → u.verification_status = VStatus.VALID) →
      ∃ v, td1Mid res c1 c2s c3s = some v ∧
        (v.document_type = DocType.ID_CARD → v.verification_status = VStatus.VALID) := by
  intro c2s
  induction c2s with
  | nil =>
      intro c3s res u hres hu
      exact ⟨u, by rw [show td1Mid res c1 [] c3s = res from rfl, hres], hu⟩
  | cons c2 rest ih =>
      intro c3s res u hres hu
      rw [show td1Mid res c1 (c2 :: rest) c3s =
        (if isValidO (td1Inner res c1 c2 c3s) = true then td1Inner res c1 c2 c3s
         else td1Mid (td1Inner res c1 c2 c3s) c1 rest c3s) from rfl]
      obtain ⟨v, hv, hq⟩ := td1Inner_pres c1 c2 c3s res u hres hu
      by_cases hval : isValidO (td1Inner res c1 c2 c3s) = true
      · rw [if_pos hval]
        exact ⟨v, hv, hq⟩
      · rw [if_neg hval]
        exact ih c3s (td1Inner res c1 c2 c3s) v hv hq

theorem td1Outer_pres :
    ∀ (c1s c2s c3s : List (List Char)) (res : Option UnifiedMrzResult)
      (u : UnifiedMrzResult), res = some u →
      (u.document_type = DocType.ID_CARD → u.verification_status = VStatus.VALID) →
      ∃ v, td1Outer res c1s c2s c3s = some v ∧
        (v.document_type = DocType.ID_CARD → v.verification_status = VStatus.VALID) := by
  intro c1s
  induction c1s with
  | nil =>
      intro c2s c3s res u hres hu
      exact ⟨u, by rw [show td1Outer res [] c2s c3s = res from rfl, hres], hu⟩
  | cons c1 rest ih =>
      intro c2s c3s res u hres hu
      rw [show td1Outer res (c1 :: rest) c2s c3s =
        (if isValidO (td1Mid res c1 c2s c3s) = true then td1Mid res c1 c2s c3s
         else td1Outer (td1Mid res c1 c2s c3s) rest c2s c3s) from rfl]
      obtain ⟨v, hv, hq⟩ := td1Mid_pres c1 c2s c3s res u hres hu
      by_cases hval : isValidO (td1Mid res c1 c2s c3s) = true
      · rw [if_pos hval]
        exact ⟨v, hv, hq⟩
      · rw [if_neg hval]
        exact ih c2s c3s (td1Mid res c1 c2s c3s) v hv hq

/-- C10: when the TD3 attempt produced any record (VALID or INVALID), the
final resolver result exists and is never an INVALID TD1 record: an
INVALID TD1 decode never overwrites an existing TD3 result, and a TD1
record can only end up as the final result when it is VALID. -/
theorem invalid_td1_never_overwrites_td3_result (ls : List (List Char))
    (r : UnifiedMrzResult) (h2 : 2 ≤ ls.length) (h3 : td3Attempt ls = some r) :
    ∃ v, processMrz ls = some v ∧
      (v.document_type = DocType.ID_CARD → v.verification_status = VStatus.VALID) := by
  have hr3 : (if 2 ≤ ls.length then td3Attempt ls else none) = some r := by
    rw [if_pos h2, h3]
  have hQ : r.document_type = DocType.ID_CARD → r.verification_status = VStatus.VALID := by
    intro hid
    rw [td3Attempt_passport ls r h3] at hid
    cases hid
  unfold processMrz
  rw [hr3]
  by_cases hcond : notYetValid (some r) = true ∧ 3 ≤ ls.length
  · rw [if_pos hcond]
    exact td1Outer_pres _ _ _ (some r) r rfl hQ
  · rw [if_neg hcond]
    exact ⟨r, rfl, hQ⟩

/-- Witness for C10 on a concrete two-line input: the TD3 attempt decodes
and the final result is the TD3 record. -/
theorem invalid_td1_never_overwrites_td3_result_witness :
    ∃ v, processMrz ["P<KGZSURNAME<<NAME<<<<<<<<<<<<<<<<<<<<<<<<<<".toList,
        "A1234567<8KGZ9801015M2801015<<<<<<<<<<<<<<06".toList] = some v ∧
      (v.document_type = DocType.ID_CARD → v.verification_status = VStatus.VALID) :=
  invalid_td1_never_overwrites_td3_result
    ["P<KGZSURNAME<<NAME<<<<<<<<<<<<<<<<<<<<<<<<<<".toList,
     "A1234567<8KGZ9801015M2801015<<<<<<<<<<<<<<06".toList]
    (parseTD3 ["P<KGZSURNAME<<NAME<<<<<<<<<<<<<<<<<<<<<<<<<<".toList,
       "A1234567<8KGZ9801015M2801015<<<<<<<<<<<<<<06".toList])
    (by decide) (by decide)

/- ===== Claim C6: normalizer idempotence ===== -/

/-- No separator-repair occurrence is due anywhere in the list, where
`p2`/`p1` are the two characters before it. -/
def noOccGo (p2 p1 : Option Char) : List Char → Prop
  | [] => True
  | c :: rest =>
      ¬((c = 'C' ∨ c = 'L') ∧ p1 = some '<' ∧ sepGuard p2 ∧ headIsLetter rest = true) ∧
        noOccGo p1 (some c) rest

theorem specSepGo_of_noOcc :
    ∀ (s : List Char) (p2 p1 : Option Char), noOccGo p2 p1 s → specSepGo p2 p1 s = s := by
  intro s
  induction s with
  | nil => intro p2 p1 _; rfl
  | cons c rest ih =>
      intro p2 p1 h
      rw [specSepGo_cons, if_neg h.1, ih p1 (some c) h.2]

/-- Relation between the previous-character state of the first pass
(`p2`,`p1`, over the input) and of the second pass (`q2`,`q1`, over the
first pass's output). -/
def sepINV (p2 p1 q2 q1 : Option Char) : Prop :=
  (p1 = none → q1 = none) ∧
  (∀ a, p1 = some a → q1 = some a ∨ (q1 = some '<' ∧ q2 = some '<')) ∧
  (∀ a, p2 = some a → q2 = some a ∨ q2 = some '<')

theorem noOcc_specSepGo :
    ∀ (s : List Char) (p2 p1 q2 q1 : Option Char), sepINV p2 p1 q2 q1 →
      noOccGo q2 q1 (specSepGo p2 p1 s) := by
  intro s
  induction s with
  | nil => intro p2 p1 q2 q1 _; trivial
  | cons c rest ih =>
      intro p2 p1 q2 q1 hinv
      rw [specSepGo_cons]
      constructor
      · intro hcon
        obtain ⟨hcl, hq1, hguard, hletter⟩ := hcon
        have hne : (if (c = 'C' ∨ c = 'L') ∧ p1 = some '<' ∧ sepGuard p2 ∧
            headIsLetter rest = true then '<' else c) ≠ '<' := by
          rcases hcl with h | h <;> rw [h] <;> decide
        have hcond1 : ¬((c = 'C' ∨ c = 'L') ∧ p1 = some '<' ∧ sepGuard p2 ∧
            headIsLetter rest = true) := by
          intro hc
          rw [if_pos hc] at hne
          exact hne rfl
        rw [if_neg hcond1] at hcl hne
        have hrest : headIsLetter rest = true := by
          match rest with
          | [] => exact absurd hletter (by simp [specSepGo, headIsLetter])
          | r :: rs =>
              rw [specSepGo_cons] at hletter
              by_cases hc2 : (r = 'C' ∨ r = 'L') ∧ (some c : Option Char) = some '<' ∧
                  sepGuard p1 ∧ headIsLetter rs = true
              · rw [if_pos hc2] at hletter
                exact absurd hletter (by simp [headIsLetter, isUpperLetter])
              · rw [if_neg hc2] at hletter
                exact hletter
        rcases Option.eq_none_or_eq_some p1 with hp1 | ⟨a, hp1⟩
        · rw [hinv.1 hp1] at hq1
          cases hq1
        · rcases hinv.2.1 a hp1 with hq | ⟨hq, hq2⟩
          · rw [hq] at hq1
            cases hq1
            have hp1lt : p1 = some '<' := hp1
            have hguardp2 : ¬sepGuard p2 := by
              intro hg
              exact hcond1 ⟨hcl, hp1lt, hg, hrest⟩
            have hp2 : p2 = some '<' := by
              match p2 with
              | none => exact absurd trivial hguardp2
              | some b =>
                  have hb : ¬(b ≠ '<') := hguardp2
                  push_neg at hb
                  rw [hb]
            rcases hinv.2.2 '<' hp2 with hq2 | hq2 <;> rw [hq2] at hguard <;>
              exact hguard rfl
          · rw [hq2] at hguard
            exact hguard rfl
      · apply ih
        refine ⟨?_, ?_, ?_⟩
        · intro h
          cases h
        · intro a ha
          have hac : a = c := by cases ha; rfl
          subst hac
          by_cases hc1 : (a = 'C' ∨ a = 'L') ∧ p1 = some '<' ∧ sepGuard p2 ∧
              headIsLetter rest = true
          · rw [if_pos hc1]
            right
            refine ⟨rfl, ?_⟩
            rcases hinv.2.1 '<' hc1.2.1 with hq | ⟨hq, _⟩ <;> exact hq
          · rw [if_neg hc1]
            left
            rfl
        · intro a ha
          rcases hinv.2.1 a ha with hq | ⟨hq, _⟩
          · left; exact hq
          · right; exact hq

theorem noOcc_append_left :
    ∀ (l1 l2 : List Char) (p2 p1 : Option Char),
      noOccGo p2 p1 (l1 ++ l2) → noOccGo p2 p1 l1 := by
  intro l1
  induction l1 with
  | nil => intro l2 p2 p1 _; trivial
  | cons c l1' ih =>
      intro l2 p2 p1 h
      constructor
      · intro hc
        apply h.1
        refine ⟨hc.1, hc.2.1, hc.2.2.1, ?_⟩
        match l1', hc.2.2.2 with
        | d :: l1'', hlet => exact hlet
      · exact ih l2 p1 (some c) h.2

theorem noOcc_fillers :
    ∀ (r : List Char) (p2 p1 : Option Char), (∀ c ∈ r, c = '<') → noOccGo p2 p1 r := by
  intro r
  induction r with
  | nil => intro p2 p1 _; trivial
  | cons c r' ih =>
      intro p2 p1 hall
      constructor
      · intro hc
        have hclt : c = '<' := hall c (List.mem_cons_self c r')
        rcases hc.1 with h | h <;> rw [hclt] at h <;> cases h
      · exact ih p1 (some c) (fun d hd => hall d (List.mem_cons_of_mem c hd))

theorem noOcc_append_fillers :
    ∀ (l r : List Char) (p2 p1 : Option Char),
      noOccGo p2 p1 l → (∀ c ∈ r, c = '<') → noOccGo p2 p1 (l ++ r) := by
  intro l
  induction l with
  | nil => intro r p2 p1 _ hall; exact noOcc_fillers r p2 p1 hall
  | cons c l' ih =>
      intro r p2 p1 h hall
      constructor
      · intro hc
        match hl : l' with
        | d :: l'' =>
            apply h.1
            subst hl
            exact ⟨hc.1, hc.2.1, hc.2.2.1, hc.2.2.2⟩
        | [] =>
            subst hl
            have hletter := hc.2.2.2
            match hr : r, hletter with
            | rc :: r', hlet =>
                have hrc : rc = '<' := hall rc (List.mem_cons_self rc r')
                have hlet2 : isUpperLetter rc = true := hlet
                rw [hrc] at hlet2
                exact absurd hlet2 (by decide)
      · exact ih r p1 (some c) h.2 hall

/-- A first-pass character can only stay itself or be rewritten from one
of `S`,`C`,`L`,`K` into a filler. -/
def sRel (a b : Char) : Prop :=
  b = a ∨ ((a = 'S' ∨ a = 'C' ∨ a = 'L' ∨ a = 'K') ∧ b = '<')

theorem sRel_trans {a b c : Char} (h1 : sRel a b) (h2 : sRel b c) : sRel a c := by
  rcases h1 with h1 | ⟨ha, hb⟩
  · rcases h2 with h2 | ⟨hb, hc⟩
    · left; rw [h2, h1]
    · right; exact ⟨by rw [← h1]; exact hb, hc⟩
  · rcases h2 with h2 | ⟨hb2, hc⟩
    · right
      exact ⟨ha, by rw [h2, hb]⟩
    · rw [hb] at hb2
      exact absurd hb2 (by decide)

theorem sRel_refl (a : Char) : sRel a a := Or.inl rfl

theorem fa2_refl : ∀ l : List Char, List.Forall₂ sRel l l := by
  intro l
  induction l with
  | nil => exact List.Forall₂.nil
  | cons c rest ih => exact List.forall₂_cons.mpr ⟨sRel_refl c, ih⟩

theorem fa2_trans :
    ∀ {l1 l2 l3 : List Char}, List.Forall₂ sRel l1 l2 → List.Forall₂ sRel l2 l3 →
      List.Forall₂ sRel l1 l3 := by
  intro l1
  induction l1 with
  | nil =>
      intro l2 l3 h12 h23
      cases h12
      cases h23
      exact List.Forall₂.nil
  | cons a l1' ih =>
      intro l2 l3 h12 h23
      rcases List.forall₂_cons_left_iff.mp h12 with ⟨b, l2', hab, h12', rfl⟩
      rcases List.forall₂_cons_left_iff.mp h23 with ⟨c, l3', hbc, h23', rfl⟩
      exact List.forall₂_cons.mpr ⟨sRel_trans hab hbc, ih h12' h23'⟩

theorem fa2_append :
    ∀ {l1 l2 r1 r2 : List Char}, List.Forall₂ sRel l1 l2 → List.Forall₂ sRel r1 r2 →
      List.Forall₂ sRel (l1 ++ r1) (l2 ++ r2) := by
  intro l1
  induction l1 with
  | nil =>
      intro l2 r1 r2 h hr
      cases h
      exact hr
  | cons a l1' ih =>
      intro l2 r1 r2 h hr
      rcases List.forall₂_cons_left_iff.mp h with ⟨b, l2', hab, h', rfl⟩
      exact List.forall₂_cons.mpr ⟨hab, ih h' hr⟩

theorem fa2_mem_right :
    ∀ {l1 l2 : List Char}, List.Forall₂ sRel l1 l2 → ∀ b ∈ l2, ∃ a ∈ l1, sRel a b := by
  intro l1
  induction l1 with
  | nil =>
      intro l2 h b hb
      cases h
      cases hb
  | cons a l1' ih =>
      intro l2 h b hb
      rcases List.forall₂_cons_left_iff.mp h with ⟨c, l2', hac, h', rfl⟩
      rcases List.mem_cons.mp hb with hb | hb
      · exact ⟨a, List.mem_cons_self a l1', hb ▸ hac⟩
      · obtain ⟨a', ha', hr⟩ := ih h' b hb
        exact ⟨a', List.mem_cons_of_mem a ha', hr⟩

theorem specSepGo_rel :
    ∀ (s : List Char) (p2 p1 : Option Char), List.Forall₂ sRel s (specSepGo p2 p1 s) := by
  intro s
  induction s with
  | nil => intro p2 p1; exact List.Forall₂.nil
  | cons c rest ih =>
      intro p2 p1
      rw [specSepGo_cons]
      refine List.forall₂_cons.mpr ⟨?_, ih p1 (some c)⟩
      by_cases hc : (c = 'C' ∨ c = 'L') ∧ p1 = some '<' ∧ sepGuard p2 ∧
          headIsLetter rest = true
      · rw [if_pos hc]
        right
        exact ⟨by rcases hc.1 with h | h <;> rw [h] <;> simp, rfl⟩
      · rw [if_neg hc]
        exact sRel_refl c

theorem fixSeparators_rel (l : List Char) : List.Forall₂ sRel l (fixSeparators l) := by
  rw [fixSeparators_eq_guarded]
  exact specSepGo_rel l none none

theorem fixTail_rel (l : List Char) : List.Forall₂ sRel l (fixTail l) := by
  unfold fixTail
  by_cases hc : 3 ≤ (tailRun l).length ∧ (tailRun l).any isLCK = true
  · rw [if_pos hc]
    have hsplit : tailFront l ++ tailRun l = l := by
      unfold tailFront tailRun
      rw [← List.reverse_append, List.takeWhile_append_dropWhile]
      exact List.reverse_reverse l
    conv_lhs => rw [← hsplit]
    refine fa2_append (fa2_refl _) ?_
    have : ∀ run : List Char, List.Forall₂ sRel run
        (run.map (fun c => if isLCK c = true then '<' else c)) := by
      intro run
      induction run with
      | nil => exact List.Forall₂.nil
      | cons c rest ih =>
          refine List.forall₂_cons.mpr ⟨?_, ih⟩
          show sRel c (if isLCK c = true then '<' else c)
          by_cases hl : isLCK c = true
          · rw [if_pos hl]
            right
            refine ⟨?_, rfl⟩
            have := of_decide_eq_true hl
            rcases this with h | h | h <;> rw [h] <;> simp
          · rw [if_neg hl]
            exact sRel_refl c
    exact this (tailRun l)
  · rw [if_neg hc]
    exact fa2_refl l

theorem startsPI_shape (p : Char) (l : List Char) (h : startsPI p l = true) :
    ∃ b c d e tl, l = p :: b :: c :: d :: e :: tl ∧ isSLCK b = true ∧
      isAZltChar c = true ∧ isAZltChar d = true ∧ isAZltChar e = true := by
  match l with
  | [] => exact absurd h (by simp [startsPI])
  | [a] => exact absurd h (by simp [startsPI])
  | [a, b] => exact absurd h (by simp [startsPI])
  | [a, b, c] => exact absurd h (by simp [startsPI])
  | [a, b, c, d] => exact absurd h (by simp [startsPI])
  | a :: b :: c :: d :: e :: tl =>
      have h2 : (decide (a = p) && isSLCK b && isAZltChar c && isAZltChar d &&
          isAZltChar e) = true := h
      simp only [Bool.and_eq_true, decide_eq_true_eq] at h2
      obtain ⟨⟨⟨⟨hap, hb⟩, hcc⟩, hd⟩, he⟩ := h2
      exact ⟨b, c, d, e, tl, by rw [hap], hb, hcc, hd, he⟩

theorem fixStart_rel (l : List Char) : List.Forall₂ sRel l (fixStart l) := by
  unfold fixStart
  have step : ∀ (p : Char) (m : List Char), (p = 'P' ∨ p = 'I') →
      List.Forall₂ sRel m (if startsPI p m = true then p :: '<' :: m.drop 2 else m) := by
    intro p m hp
    by_cases hs : startsPI p m = true
    · rw [if_pos hs]
      obtain ⟨b, c, d, e, tl, hm, hb, _, _, _⟩ := startsPI_shape p m hs
      subst hm
      refine List.forall₂_cons.mpr ⟨sRel_refl p, ?_⟩
      refine List.forall₂_cons.mpr ⟨?_, fa2_refl _⟩
      right
      refine ⟨?_, rfl⟩
      have hb2 : b = 'S' ∨ b = 'L' ∨ b = 'C' ∨ b = 'K' := by
        unfold isSLCK at hb
        exact of_decide_eq_true hb
      tauto
    · rw [if_neg hs]
      exact fa2_refl m
  exact fa2_trans (step 'P' l (Or.inl rfl)) (step 'I' _ (Or.inr rfl))

theorem cleanMrzLine_core_rel (l : List Char) :
    List.Forall₂ sRel l (fixTail (fixSeparators (fixStart l))) :=
  fa2_trans (fixStart_rel l)
    (fa2_trans (fixSeparators_rel (fixStart l)) (fixTail_rel (fixSeparators (fixStart l))))

theorem padEndLt_filler (l : List Char) (n : Nat) :
    ∃ r, padEndLt l n = l ++ r ∧ ∀ c ∈ r, c = '<' := by
  refine ⟨List.replicate (n - l.length) '<', rfl, ?_⟩
  intro c hc
  exact List.eq_of_mem_replicate hc

theorem fixLength_append (t : List Char) :
    ∃ r, fixLength t = t ++ r ∧ (∀ c ∈ r, c = '<') ∧
      (r = [] ∨ (t.getD 1 '?' = '<' ∧ 21 ≤ t.length)) := by
  unfold fixLength
  by_cases hP : startsWith2 'P' '<' t = true ∧ t.length < 44 ∧ 30 < t.length
  · rw [if_pos hP]
    have hs1 : startsWith2 'I' '<' (padEndLt t 44) = true → False := by
      intro hcon
      obtain ⟨a, b, tl, ht⟩ : ∃ a b tl, t = a :: b :: tl := by
        match t, hP.1 with
        | a :: b :: tl, _ => exact ⟨a, b, tl, rfl⟩
      have hab : a = 'P' ∧ b = '<' := by
        have := hP.1
        rw [ht] at this
        exact of_decide_eq_true this
      rw [ht] at hcon
      have : ('P' = 'I' ∧ b = '<') := by
        have h2 : (a = 'I' ∧ b = '<') := of_decide_eq_true hcon
        rw [← hab.1]
        exact h2
      exact absurd this.1 (by decide)
    rw [if_neg (fun hcon => hs1 hcon.1)]
    obtain ⟨r, hr, hall⟩ := padEndLt_filler t 44
    refine ⟨r, hr, hall, Or.inr ⟨?_, by omega⟩⟩
    obtain ⟨a, b, tl, ht⟩ : ∃ a b tl, t = a :: b :: tl := by
      match t, hP.1 with
      | a :: b :: tl, _ => exact ⟨a, b, tl, rfl⟩
    have hab : a = 'P' ∧ b = '<' := by
      have := hP.1
      rw [ht] at this
      exact of_decide_eq_true this
    rw [ht]
    exact hab.2
  · rw [if_neg hP]
    by_cases hI : startsWith2 'I' '<' t = true ∧ t.length < 30 ∧ 20 < t.length
    · rw [if_pos hI]
      obtain ⟨r, hr, hall⟩ := padEndLt_filler t 30
      refine ⟨r, hr, hall, Or.inr ⟨?_, by omega⟩⟩
      obtain ⟨a, b, tl, ht⟩ : ∃ a b tl, t = a :: b :: tl := by
        match t, hI.1 with
        | a :: b :: tl, _ => exact ⟨a, b, tl, rfl⟩
      have hab : a = 'I' ∧ b = '<' := by
        have := hI.1
        rw [ht] at this
        exact of_decide_eq_true this
      rw [ht]
      exact hab.2
    · rw [if_neg hI]
      exact ⟨[], by simp, by simp, Or.inl rfl⟩

theorem toNat_ofNat_valid (n : Nat) (h : n < 0xd800) : (Char.ofNat n).toNat = n := by
  unfold Char.ofNat
  rw [dif_pos (Or.inl h)]
  simp [Char.ofNatAux, Char.toNat, UInt32.toNat, UInt32.ofNat']

theorem toUpper_idem (c : Char) : Char.toUpper (Char.toUpper c) = Char.toUpper c := by
  unfold Char.toUpper
  simp only []
  by_cases h : c.toNat ≥ 97 ∧ c.toNat ≤ 122
  · rw [if_pos h]
    have hv : (Char.ofNat (c.toNat - 32)).toNat = c.toNat - 32 :=
      toNat_ofNat_valid _ (by omega)
    rw [if_neg (by omega)]
  · rw [if_neg h, if_neg h]

theorem clean_core_upper_fixed (x : List Char) :
    ∀ c ∈ fixTail (fixSeparators (fixStart (x.map Char.toUpper))), Char.toUpper c = c := by
  intro c hc
  obtain ⟨a, ha, hrel⟩ := fa2_mem_right (cleanMrzLine_core_rel (x.map Char.toUpper)) c hc
  rcases hrel with hrel | ⟨_, hrel⟩
  · obtain ⟨a0, _, ha0⟩ := List.mem_map.mp ha
    rw [hrel, ← ha0]
    exact toUpper_idem a0
  · rw [hrel]
    decide

theorem map_toUpper_cleanMrzLine (x : List Char) :
    (cleanMrzLine x).map Char.toUpper = cleanMrzLine x := by
  have hfixed : ∀ c ∈ cleanMrzLine x, Char.toUpper c = c := by
    intro c hc
    unfold cleanMrzLine at hc
    obtain ⟨r, hr, hall, _⟩ :=
      fixLength_append (fixTail (fixSeparators (fixStart (x.map Char.toUpper))))
    rw [hr] at hc
    rcases List.mem_append.mp hc with hc | hc
    · exact clean_core_upper_fixed x c hc
    · rw [hall c hc]
      decide
  conv_rhs => rw [← List.map_id (cleanMrzLine x)]
  exact List.map_congr_left hfixed

theorem startsPI_getD1 (q : Char) (l : List Char) (h : startsPI q l = true) :
    isSLCK (l.getD 1 '?') = true := by
  obtain ⟨b, c, d, e, tl, hl, hb, _⟩ := startsPI_shape q l h
  rw [hl]
  exact hb

theorem fa2_getD1_lt {w t : List Char} (h : List.Forall₂ sRel w t)
    (hw : w.getD 1 '?' = '<') : t.getD 1 '?' = '<' := by
  match w, hw with
  | [], hw => exact absurd hw (by decide)
  | [a], hw =>
      have hw2 : ('?' : Char) = '<' := hw
      exact absurd hw2 (by decide)
  | a :: a1 :: wr, hw =>
      rcases List.forall₂_cons_left_iff.mp h with ⟨b, t', hab, h', rfl⟩
      rcases List.forall₂_cons_left_iff.mp h' with ⟨b1, t'', ha1b1, h'', rfl⟩
      have hw2 : a1 = '<' := hw
      show b1 = '<'
      rcases ha1b1 with hr | ⟨_, hr⟩
      · rw [hr, hw2]
      · exact hr

theorem fixStart_cases (u : List Char) :
    (fixStart u).getD 1 '?' = '<' ∨
      (fixStart u = u ∧ startsPI 'P' u = false ∧ startsPI 'I' u = false) := by
  unfold fixStart
  by_cases hp : startsPI 'P' u = true
  · rw [if_pos hp]
    by_cases hi : startsPI 'I' ('P' :: '<' :: u.drop 2) = true
    · rw [if_pos hi]
      left
      rfl
    · rw [if_neg hi]
      left
      rfl
  · rw [if_neg hp]
    by_cases hi : startsPI 'I' u = true
    · rw [if_pos hi]
      left
      rfl
    · rw [if_neg hi]
      right
      exact ⟨rfl, Bool.eq_false_iff.mpr hp, Bool.eq_false_iff.mpr hi⟩

theorem isSLCK_ne_lt {c : Char} (h : isSLCK c = true) : c ≠ '<' := by
  intro hc
  rw [hc] at h
  exact absurd h (by decide)

theorem isAZltChar_of_SCLK {c : Char} (h : c = 'S' ∨ c = 'C' ∨ c = 'L' ∨ c = 'K') :
    isAZltChar c = true := by
  rcases h with h | h | h | h <;> rw [h] <;> decide

theorem startsPI_build (q : Char) (u1 u2 u3 u4 : Char) (ur : List Char)
    (h1 : isSLCK u1 = true) (h2 : isAZltChar u2 = true) (h3 : isAZltChar u3 = true)
    (h4 : isAZltChar u4 = true) :
    startsPI q (q :: u1 :: u2 :: u3 :: u4 :: ur) = true := by
  show (decide (q = q) && isSLCK u1 && isAZltChar u2 && isAZltChar u3 &&
    isAZltChar u4) = true
  simp [h1, h2, h3, h4]

theorem startsPI_cleanMrzLine_false (x : List Char) :
    startsPI 'P' (cleanMrzLine x) = false ∧ startsPI 'I' (cleanMrzLine x) = false := by
  have hrel : List.Forall₂ sRel (fixStart (x.map Char.toUpper))
      (fixTail (fixSeparators (fixStart (x.map Char.toUpper)))) :=
    fa2_trans (fixSeparators_rel _) (fixTail_rel _)
  obtain ⟨r, hzr, hallr, hcase⟩ :=
    fixLength_append (fixTail (fixSeparators (fixStart (x.map Char.toUpper))))
  have hz : cleanMrzLine x =
      fixTail (fixSeparators (fixStart (x.map Char.toUpper))) ++ r := hzr
  -- a filler in the second column of the core kills both tests
  have ofT1 : (fixTail (fixSeparators (fixStart (x.map Char.toUpper)))).getD 1 '?' = '<' →
      ∀ q, startsPI q (cleanMrzLine x) = false := by
    intro ht1 q
    have hlt : 2 ≤ (fixTail (fixSeparators (fixStart (x.map Char.toUpper)))).length := by
      by_contra hlen
      push_neg at hlen
      match hm : fixTail (fixSeparators (fixStart (x.map Char.toUpper))), hlen with
      | [], _ => rw [hm] at ht1; exact absurd ht1 (by decide)
      | [a], _ =>
          rw [hm] at ht1
          have ht2 : ('?' : Char) = '<' := ht1
          exact absurd ht2 (by decide)
      | a :: b :: tl, hlen => simp at hlen; omega
    have hz1 : (cleanMrzLine x).getD 1 '?' = '<' := by
      rw [hz, List.getD_append _ _ _ 1 (by omega)]
      exact ht1
    apply Bool.eq_false_iff.mpr
    intro hq
    have h1 := startsPI_getD1 q (cleanMrzLine x) hq
    rw [hz1] at h1
    exact absurd h1 (by decide)
  rcases fixStart_cases (x.map Char.toUpper) with hW | ⟨hwu, hPu, hIu⟩
  · have ht1 := fa2_getD1_lt hrel hW
    exact ⟨ofT1 ht1 'P', ofT1 ht1 'I'⟩
  · rcases hcase with hr0 | ⟨ht1, _⟩
    · subst hr0
      rw [List.append_nil] at hz
      rw [hwu] at hrel hz
      have main : ∀ q, q ≠ '<' → startsPI q (x.map Char.toUpper) = false →
          startsPI q (cleanMrzLine x) = false := by
        intro q hqlt hqu
        apply Bool.eq_false_iff.mpr
        intro hq
        obtain ⟨z1, z2, z3, z4, zr, hzs, hb1, hb2, hb3, hb4⟩ :=
          startsPI_shape q (cleanMrzLine x) hq
        rw [hz] at hzs
        rw [hzs] at hrel
        rcases List.forall₂_cons_right_iff.mp hrel with ⟨u0, u', hu0, hrel1, hueq⟩
        rcases List.forall₂_cons_right_iff.mp hrel1 with ⟨u1, u'', hu1, hrel2, hueq1⟩
        rcases List.forall₂_cons_right_iff.mp hrel2 with ⟨u2, u3t, hu2, hrel3, hueq2⟩
        rcases List.forall₂_cons_right_iff.mp hrel3 with ⟨u3, u4t, hu3, hrel4, hueq3⟩
        rcases List.forall₂_cons_right_iff.mp hrel4 with ⟨u4, ur, hu4, _, hueq4⟩
        have hu0q : u0 = q := by
          rcases hu0 with h | ⟨_, h⟩
          · exact h.symm
          · exact absurd h hqlt
        have hz1ne : z1 ≠ '<' := isSLCK_ne_lt hb1
        have hu1z : u1 = z1 := by
          rcases hu1 with h | ⟨_, h⟩
          · exact h.symm
          · exact absurd h hz1ne
        have hslck1 : isSLCK u1 = true := by rw [hu1z]; exact hb1
        have haz : ∀ (ui zi : Char), sRel ui zi → isAZltChar zi = true →
            isAZltChar ui = true := by
          intro ui zi hr hzi
          rcases hr with h | ⟨h, _⟩
          · rw [← h]
            exact hzi
          · exact isAZltChar_of_SCLK h
        have hfull : startsPI q (x.map Char.toUpper) = true := by
          rw [hueq, hueq1, hueq2, hueq3, hueq4, hu0q, hu1z]
          exact startsPI_build q z1 u2 u3 u4 ur hb1 (haz u2 z2 hu2 hb2)
            (haz u3 z3 hu3 hb3) (haz u4 z4 hu4 hb4)
        rw [hfull] at hqu
        cases hqu
      exact ⟨main 'P' (by decide) hPu, main 'I' (by decide) hIu⟩
    · exact ⟨ofT1 ht1 'P', ofT1 ht1 'I'⟩

theorem fixStart_cleanMrzLine (x : List Char) :
    fixStart (cleanMrzLine x) = cleanMrzLine x := by
  obtain ⟨hP, hI⟩ := startsPI_cleanMrzLine_false x
  unfold fixStart
  have e1 : (if startsPI 'P' (cleanMrzLine x) = true then
      'P' :: '<' :: (cleanMrzLine x).drop 2 else cleanMrzLine x) = cleanMrzLine x := by
    rw [hP]
    simp
  rw [e1]
  show (if startsPI 'I' (cleanMrzLine x) = true then
      'I' :: '<' :: (cleanMrzLine x).drop 2 else cleanMrzLine x) = cleanMrzLine x
  rw [hI]
  simp

theorem tailFront_append_tailRun (l : List Char) : tailFront l ++ tailRun l = l := by
  unfold tailFront tailRun
  rw [← List.reverse_append, List.takeWhile_append_dropWhile]
  exact List.reverse_reverse l

theorem tailRun_fillers_after_map (l : List Char) :
    ∀ c ∈ (tailRun l).map (fun c => if isLCK c = true then '<' else c), c = '<' := by
  intro c hc
  obtain ⟨a, ha, hfa⟩ := List.mem_map.mp hc
  have hclass : isTailRunChar a = true := by
    unfold tailRun at ha
    exact List.mem_takeWhile_imp (List.mem_reverse.mp ha)
  have h4 : a = 'L' ∨ a = 'C' ∨ a = 'K' ∨ a = '<' := of_decide_eq_true hclass
  rw [← hfa]
  rcases h4 with h | h | h | h <;> rw [h] <;> decide

theorem noOcc_cleanMrzLine (x : List Char) :
    noOccGo none none (cleanMrzLine x) := by
  have hv : noOccGo none none (fixSeparators (fixStart (x.map Char.toUpper))) := by
    rw [fixSeparators_eq_guarded]
    refine noOcc_specSepGo _ none none none none ⟨fun _ => rfl, ?_, ?_⟩
    · intro a h
      cases h
    · intro a h
      cases h
  have ht : noOccGo none none (fixTail (fixSeparators (fixStart (x.map Char.toUpper)))) := by
    unfold fixTail
    by_cases hc : 3 ≤ (tailRun (fixSeparators (fixStart (x.map Char.toUpper)))).length ∧
        (tailRun (fixSeparators (fixStart (x.map Char.toUpper)))).any isLCK = true
    · rw [if_pos hc]
      apply noOcc_append_fillers
      · apply noOcc_append_left _ (tailRun (fixSeparators (fixStart (x.map Char.toUpper))))
        rw [tailFront_append_tailRun]
        exact hv
      · exact tailRun_fillers_after_map _
    · rw [if_neg hc]
      exact hv
  obtain ⟨r, hr, hall, _⟩ :=
    fixLength_append (fixTail (fixSeparators (fixStart (x.map Char.toUpper))))
  show noOccGo none none
    (fixLength (fixTail (fixSeparators (fixStart (x.map Char.toUpper)))))
  rw [hr]
  exact noOcc_append_fillers _ _ _ _ ht hall

theorem fixSeparators_cleanMrzLine (x : List Char) :
    fixSeparators (cleanMrzLine x) = cleanMrzLine x := by
  rw [fixSeparators_eq_guarded]
  exact specSepGo_of_noOcc _ none none (noOcc_cleanMrzLine x)

theorem padEndLt_length (l : List Char) (n : Nat) (h : l.length ≤ n) :
    (padEndLt l n).length = n := by
  unfold padEndLt
  simp only [List.length_append, List.length_replicate]
  omega

theorem startsWith2_shape (p q : Char) (l : List Char) (h : startsWith2 p q l = true) :
    ∃ tl, l = p :: q :: tl := by
  match l with
  | [] => exact absurd h (by simp [startsWith2])
  | [a] => exact absurd h (by simp [startsWith2])
  | a :: b :: tl =>
      have h2 : a = p ∧ b = q := of_decide_eq_true h
      exact ⟨tl, by rw [h2.1, h2.2]⟩

theorem startsWith2_head (p q h2 : Char) (b : Char) (tl : List Char) (hne : h2 ≠ p) :
    startsWith2 p q (h2 :: b :: tl) = false := by
  apply decide_eq_false
  intro hcon
  exact hne hcon.1

theorem fixLength_of_neither (t : List Char)
    (hP : ¬(startsWith2 'P' '<' t = true ∧ t.length < 44 ∧ 30 < t.length))
    (hI : ¬(startsWith2 'I' '<' t = true ∧ t.length < 30 ∧ 20 < t.length)) :
    fixLength t = t := by
  unfold fixLength
  rw [if_neg hP, if_neg hI]

theorem fixLength_idem (t : List Char) : fixLength (fixLength t) = fixLength t := by
  by_cases hP : startsWith2 'P' '<' t = true ∧ t.length < 44 ∧ 30 < t.length
  · have hz : fixLength t = padEndLt t 44 := by
      unfold fixLength
      rw [if_pos hP]
      obtain ⟨tl, ht⟩ := startsWith2_shape 'P' '<' t hP.1
      have hlen : (padEndLt t 44).length = 44 := padEndLt_length t 44 (by omega)
      rw [if_neg]
      intro hcon
      omega
    obtain ⟨tl, ht⟩ := startsWith2_shape 'P' '<' t hP.1
    have hpe : padEndLt t 44 = 'P' :: '<' :: (tl ++ List.replicate (44 - t.length) '<') := by
      unfold padEndLt
      rw [ht]
      rfl
    have hlen : (padEndLt t 44).length = 44 := padEndLt_length t 44 (by omega)
    rw [hz]
    apply fixLength_of_neither
    · intro hcon
      omega
    · intro hcon
      rw [hpe] at hcon
      rw [startsWith2_head 'I' '<' 'P' '<' _ (by decide)] at hcon
      cases hcon.1
  · by_cases hI : startsWith2 'I' '<' t = true ∧ t.length < 30 ∧ 20 < t.length
    · have hz : fixLength t = padEndLt t 30 := by
        unfold fixLength
        rw [if_neg hP, if_pos hI]
      obtain ⟨tl, ht⟩ := startsWith2_shape 'I' '<' t hI.1
      have hpe : padEndLt t 30 = 'I' :: '<' :: (tl ++ List.replicate (30 - t.length) '<') := by
        unfold padEndLt
        rw [ht]
        rfl
      have hlen : (padEndLt t 30).length = 30 := padEndLt_length t 30 (by omega)
      rw [hz]
      apply fixLength_of_neither
      · intro hcon
        rw [hpe] at hcon
        rw [startsWith2_head 'P' '<' 'I' '<' _ (by decide)] at hcon
        cases hcon.1
      · intro hcon
        omega
    · have hz : fixLength t = t := fixLength_of_neither t hP hI
      rw [hz, hz]

theorem fixLength_cleanMrzLine (x : List Char) :
    fixLength (cleanMrzLine x) = cleanMrzLine x := by
  show fixLength (fixLength (fixTail (fixSeparators (fixStart (x.map Char.toUpper))))) = _
  exact fixLength_idem _

/-- C6 (counterexample): on `P<` + 36 letters + `LL` (40 characters) the
first pass pads with fillers to 44 without touching the too-short `LL`
tail; the second pass then sees a trailing `LL<<<<` run and rewrites it,
so applying the normalizer twice differs from applying it once. -/
theorem cleanMrzLine_not_idempotent :
    cleanMrzLine (cleanMrzLine
        "P<AAAAAAAAAAAAAAAAAAAAAAAAAAAAAAAAAAAALL".toList) ≠
      cleanMrzLine "P<AAAAAAAAAAAAAAAAAAAAAAAAAAAAAAAAAAAALL".toList := by
  decide

/-- C6 (amended): the normalizer is idempotent on every line `x` whose
cleaned form does not end in a repairable run — that is, unless the
trailing `[LCK<]` run of `cleanMrzLine x` is at least 3 long and still
contains an `L`, `C` or `K` (which only arises when the length repair's
padding extends a short trailing letter run into a repairable one). -/
theorem cleanMrzLine_idempotent_unless_padding_extends_tail_run (x : List Char)
    (h : ¬(3 ≤ (tailRun (cleanMrzLine x)).length ∧
        (tailRun (cleanMrzLine x)).any isLCK = true)) :
    cleanMrzLine (cleanMrzLine x) = cleanMrzLine x := by
  conv_lhs => rw [show cleanMrzLine (cleanMrzLine x) =
    fixLength (fixTail (fixSeparators (fixStart
      ((cleanMrzLine x).map Char.toUpper)))) from rfl]
  rw [map_toUpper_cleanMrzLine, fixStart_cleanMrzLine, fixSeparators_cleanMrzLine]
  rw [show fixTail (cleanMrzLine x) = cleanMrzLine x from by
    unfold fixTail
    rw [if_neg h]]
  exact fixLength_cleanMrzLine x

/-- Witness for the amended C6 on a concrete clean passport line. -/
theorem cleanMrzLine_idempotent_witness :
    ¬(3 ≤ (tailRun (cleanMrzLine
        "P<KGZSURNAME<<NAME<<<<<<<<<<<<<<<<<<<<<<<<<<".toList)).length ∧
      (tailRun (cleanMrzLine
        "P<KGZSURNAME<<NAME<<<<<<<<<<<<<<<<<<<<<<<<<<".toList)).any isLCK = true) ∧
    cleanMrzLine (cleanMrzLine "P<KGZSURNAME<<NAME<<<<<<<<<<<<<<<<<<<<<<<<<<".toList) =
      cleanMrzLine "P<KGZSURNAME<<NAME<<<<<<<<<<<<<<<<<<<<<<<<<<".toList :=
  ⟨by decide, cleanMrzLine_idempotent_unless_padding_extends_tail_run
    "P<KGZSURNAME<<NAME<<<<<<<<<<<<<<<<<<<<<<<<<<".toList (by decide)⟩
